import Mathlib

/-!
Verification of the johanson streaming JSON writer (streamwriter.go).

The Go code is shallowly embedded as follows.  Output bytes are `List Char`
(one `Char` per byte).  The single `io.Writer` sink of a stream-writer
document is global, so a `val.w`/`obj.w` field (`io.Writer` in Go, nil or
the sink) becomes a `Bool` saying whether the writer reference is present.
All values of type `val` and `obj` that are alive at the same time are kept
in a heap (`St.vals`, `St.objs`), and Go pointers become indices into those
lists; this captures the sharing between an object-item context and its
owning `obj`, and between callbacks and the handles that escape them.
Calling `Write` on a nil writer interface panics in Go; the model records
that as `St.panicked := true`.

`encoding/json.Marshal` is external to the repository: its result on a
string value is a parameter `jenc : String → List Char` threaded through
the definitions, and its result on an arbitrary value is passed in as an
`Except String (List Char)` (the serialized bytes, or the error), exactly
the two outcomes the Go code branches on.  `strconv.FormatInt`/`FormatUint`
in base 10 coincide with `toString` on `Int`/`Nat`.
-/

/-- A sequence of output bytes, one `Char` per byte. -/
abbrev Bytes := List Char

/-- The JSON value context attached to a `val` (source: interface
`jsonContext` with its three implementations `jsonContextSingle`,
`jsonContextArray`, `jsonContextObjectItem`).  `jsonContextSingle` and
`jsonContextArray` hold a pointer to the paused flag of the `val` that owns
them, so no extra field is needed; `jsonContextArray` additionally owns its
`nonEmpty` flag, and `jsonContextObjectItem` holds the item key and a
pointer (here: heap index) to the owning `obj`. -/
inductive jsonContext where
  | single : jsonContext
  | array (nonEmpty : Bool) : jsonContext
  | objectItem (key : String) (oid : Nat) : jsonContext
deriving Repr, DecidableEq

/-- Source struct `val` (streamwriter.go lines 36-40): the writer reference
(present or nil), the optional context, and the paused flag. -/
structure val where
  w : Bool
  ctx : Option jsonContext
  paused : Bool
deriving Repr, DecidableEq

/-- Source struct `obj` (streamwriter.go lines 175-179). -/
structure obj where
  w : Bool
  nonEmpty : Bool
  paused : Bool
deriving Repr, DecidableEq

/-- The world state: bytes written so far, whether a nil-writer dereference
(a Go panic) has occurred, and the heaps of live `val` and `obj` records. -/
structure St where
  out : Bytes
  panicked : Bool
  vals : List val
  objs : List obj
deriving Repr, DecidableEq

/-- Read a `val` from the heap. -/
def getVal (st : St) (i : Nat) : Option val := st.vals[i]?

/-- Write a `val` back to the heap. -/
def setVal (st : St) (i : Nat) (v : val) : St := { st with vals := st.vals.set i v }

/-- Read an `obj` from the heap. -/
def getObj (st : St) (i : Nat) : Option obj := st.objs[i]?

/-- Write an `obj` back to the heap. -/
def setObj (st : St) (i : Nat) (o : obj) : St := { st with objs := st.objs.set i o }

/-- `x.Write(b)` on an `io.Writer` that is either the sink (`present`) or
nil: append the bytes, or record the Go panic of a nil dereference. -/
def wWrite (present : Bool) (st : St) (b : Bytes) : St :=
  if present then { st with out := st.out ++ b } else { st with panicked := true }

/-- Source `obj.prewrite` (lines 186-196): refuse when the writer is nil AND
the builder is paused; otherwise write a separating comma if an item was
already emitted, mark the builder non-empty, and allow the write. -/
def obj_prewrite (st : St) (oid : Nat) : St × Bool :=
  match getObj st oid with
  | none => (st, false)
  | some o =>
    if o.w = false ∧ o.paused then
      (st, false)
    else
      let st1 := if o.nonEmpty then wWrite o.w st [','] else st
      (setObj st1 oid { o with nonEmpty := true }, true)

/-- Source `jsonContextObjectItem.prewrite` (lines 207-214): run the owning
builder's prewrite and, if it allows, emit the JSON-encoded key and a colon
through the item slot's writer `wPresent`; a single-value context either
way. -/
def objectItem_prewrite (jenc : String → Bytes) (st : St) (wPresent : Bool)
    (key : String) (oid : Nat) : St :=
  let r := obj_prewrite st oid
  if r.2 then wWrite wPresent (wWrite wPresent r.1 (jenc key)) [':'] else r.1

/-- Source `val.prewrite` (lines 59-66) together with the three
`jsonContext.prewrite` implementations it dispatches to.  Returns the new
state, `ok` (write permitted) and `single` (context is single-use).  The
handle is `Option Nat`: `none` is the nil `*val`. -/
def val_prewrite (jenc : String → Bytes) (st : St) (h : Option Nat) :
    St × Bool × Bool :=
  match h with
  | none => (st, false, false)
  | some vid =>
    match getVal st vid with
    | none => (st, false, false)
    | some v =>
      if v.w = false ∨ v.ctx = none ∨ v.paused then (st, false, false)
      else
        match v.ctx with
        | none => (st, false, false)
        | some jsonContext.single => (st, true, true)
        | some (jsonContext.array ne) =>
          let st1 := if ne then wWrite v.w st [','] else st
          (setVal st1 vid { v with ctx := some (jsonContext.array true) }, true, false)
        | some (jsonContext.objectItem key oid) =>
          (objectItem_prewrite jenc st v.w key oid, true, true)

/-- The three `jsonContext.pause` implementations (lines 32-34, 55-57,
203-205): single and array contexts flip the paused flag of the `val` that
owns them; an object-item context flips the owning builder's flag. -/
def ctx_pause (st : St) (vid : Nat) (c : jsonContext) (flag : Bool) : St :=
  match c with
  | jsonContext.single =>
    match getVal st vid with
    | some v => setVal st vid { v with paused := flag }
    | none => st
  | jsonContext.array _ =>
    match getVal st vid with
    | some v => setVal st vid { v with paused := flag }
    | none => st
  | jsonContext.objectItem _ oid =>
    match getObj st oid with
    | some o => setObj st oid { o with paused := flag }
    | none => st

/-- Source `val.postwrite` (lines 68-75): if a context is attached, un-pause
it, and when it was single-use detach it, finishing the slot. -/
def val_postwrite (st : St) (vid : Nat) (single : Bool) : St :=
  match getVal st vid with
  | none => st
  | some v =>
    match v.ctx with
    | none => st
    | some c =>
      let st1 := ctx_pause st vid c false
      if single then
        match getVal st1 vid with
        | none => st1
        | some v1 => setVal st1 vid { v1 with ctx := none }
      else st1

/-- The part of a scalar write after a successful pre-write check: emit the
encoded payload through the slot's writer, then postwrite. -/
def val_writeEnc_go (st1 : St) (vid : Nat) (single : Bool) (enc : Bytes) : St :=
  let vw := Option.elim (getVal st1 vid) true val.w
  val_postwrite (wWrite vw st1 enc) vid single

/-- The shared body of every scalar write (`Null`, `Bool`, `Int`, `Uint`,
`Float`, `String`, lines 79-154): prewrite, emit the encoded payload
through the slot's writer, postwrite. -/
def val_writeEnc (jenc : String → Bytes) (st : St) (h : Option Nat) (enc : Bytes) : St :=
  match h, val_prewrite jenc st h with
  | some vid, (st1, true, single) => val_writeEnc_go st1 vid single enc
  | _, (st1, _, _) => st1

/-- Source `val.Null` (lines 79-84). -/
def val_Null (jenc : String → Bytes) (st : St) (h : Option Nat) : St :=
  val_writeEnc jenc st h ("null".toList)

/-- Source `val.Bool` (lines 106-115). -/
def val_Bool (jenc : String → Bytes) (st : St) (h : Option Nat) (b : Bool) : St :=
  val_writeEnc jenc st h (if b then "true".toList else "false".toList)

/-- Source `val.Int` (lines 119-124); `strconv.FormatInt val 10` is
`toString` on `Int`. -/
def val_Int (jenc : String → Bytes) (st : St) (h : Option Nat) (i : Int) : St :=
  val_writeEnc jenc st h (toString i).toList

/-- Source `val.Uint` (lines 128-133); `strconv.FormatUint val 10` is
`toString` on `Nat`. -/
def val_Uint (jenc : String → Bytes) (st : St) (h : Option Nat) (n : Nat) : St :=
  val_writeEnc jenc st h (toString n).toList

/-- Source `val.Float` (lines 137-143): the bytes produced by
`json.Marshal` on the float argument are passed in as `enc`. -/
def val_Float (jenc : String → Bytes) (st : St) (h : Option Nat) (enc : Bytes) : St :=
  val_writeEnc jenc st h enc

/-- Source `val.String` (lines 148-154): emits `json.Marshal s`, i.e.
`jenc s`. -/
def val_String (jenc : String → Bytes) (st : St) (h : Option Nat) (s : String) : St :=
  val_writeEnc jenc st h (jenc s)

/-- Source `val.Marshal` (lines 90-102).  `res` is the outcome of
`json.Marshal value`.  On success the bytes are written; either way
postwrite runs; the marshal error (if any) is returned. -/
def val_Marshal_go (st1 : St) (vid : Nat) (single : Bool)
    (res : Except String Bytes) : St × Option String :=
  match res with
  | Except.ok bs =>
    let vw := Option.elim (getVal st1 vid) true val.w
    (val_postwrite (wWrite vw st1 bs) vid single, none)
  | Except.error e => (val_postwrite st1 vid single, some e)

/-- Dispatch of `val.Marshal` on the pre-write outcome. -/
def val_Marshal (jenc : String → Bytes) (st : St) (h : Option Nat)
    (res : Except String Bytes) : St × Option String :=
  match h, val_prewrite jenc st h with
  | some vid, (st1, true, single) => val_Marshal_go st1 vid single res
  | _, (st1, _, _) => (st1, none)

/-- The shared opening of `val.Array`/`val.Object` (lines 161-162 and
247-248): pause this slot's context and write the opening delimiter through
the slot's writer. -/
def compositeOpen (st1 : St) (vid : Nat) (delim : Char) : St :=
  let st2 := match getVal st1 vid with
             | some v =>
               match v.ctx with
               | some c => ctx_pause st1 vid c true
               | none => st1
             | none => st1
  wWrite (Option.elim (getVal st2 vid) true val.w) st2 [delim]

/-- Lines 164-166: the fresh inner array `val`, its writer copied from the
opening slot's writer. -/
def arrayAlloc (st3 : St) (vid : Nat) : St :=
  { st3 with vals :=
      st3.vals ++ [⟨Option.elim (getVal st3 vid) true val.w,
                    some (jsonContext.array false), false⟩] }

/-- Line 168: `a.w = nil`, clearing the inner handle's writer reference
after the callback returns. -/
def severVal (st : St) (aid : Nat) : St :=
  match getVal st aid with
  | some a => setVal st aid { a with w := false }
  | none => st

/-- Line 250: the fresh `obj` builder, its writer copied from the opening
slot's writer. -/
def objectAlloc (st3 : St) (vid : Nat) : St :=
  { st3 with objs := st3.objs ++ [⟨Option.elim (getVal st3 vid) true val.w, false, false⟩] }

/-- Line 252: `jso.w = nil`, clearing the builder's writer reference after
the callback returns. -/
def severObj (st : St) (oid : Nat) : St :=
  match getObj st oid with
  | some o => setObj st oid { o with w := false }
  | none => st

/-- Source `val.Array` (lines 159-173) after a successful pre-write check:
pause this context; write `[`; if a callback is given, allocate the inner
`val`, run the callback with its handle, then clear the inner writer
reference; write `]`; postwrite.  The callback is an arbitrary state
transformer receiving the fresh handle. -/
def val_Array_go (st1 : St) (vid : Nat) (single : Bool)
    (fn : Option (Nat → St → St)) : St :=
  let st3 := compositeOpen st1 vid '['
  let st4 := match fn with
    | none => st3
    | some f => severVal (f st3.vals.length (arrayAlloc st3 vid)) st3.vals.length
  val_postwrite (wWrite (Option.elim (getVal st4 vid) true val.w) st4 [']']) vid single

/-- Dispatch of `val.Array` on the pre-write outcome. -/
def val_Array (jenc : String → Bytes) (st : St) (h : Option Nat)
    (fn : Option (Nat → St → St)) : St :=
  match h, val_prewrite jenc st h with
  | some vid, (st1, true, single) => val_Array_go st1 vid single fn
  | _, (st1, _, _) => st1

/-- Source `val.Object` (lines 245-257): like `val.Array` but allocating an
`obj` builder (writer copied from this slot), with `{`/`}` delimiters, and
clearing the builder's writer reference after the callback. -/
def val_Object_go (st1 : St) (vid : Nat) (single : Bool)
    (fn : Option (Nat → St → St)) : St :=
  let st3 := compositeOpen st1 vid '{'
  let st4 := match fn with
    | none => st3
    | some f => severObj (f st3.objs.length (objectAlloc st3 vid)) st3.objs.length
  val_postwrite (wWrite (Option.elim (getVal st4 vid) true val.w) st4 ['}']) vid single

/-- Dispatch of `val.Object` on the pre-write outcome. -/
def val_Object (jenc : String → Bytes) (st : St) (h : Option Nat)
    (fn : Option (Nat → St → St)) : St :=
  match h, val_prewrite jenc st h with
  | some vid, (st1, true, single) => val_Object_go st1 vid single fn
  | _, (st1, _, _) => st1

/-- Source `obj.Item` (lines 221-227): when the builder is not paused, set
its paused flag and mint a brand-new `val` whose writer is the builder's
writer and whose context is the keyed single-value context; otherwise
return the nil handle. -/
def obj_Item (st : St) (oid : Nat) (key : String) : St × Option Nat :=
  match getObj st oid with
  | none => (st, none)
  | some o =>
    if o.paused = false then
      let st1 := setObj st oid { o with paused := true }
      ({ st1 with vals := st1.vals ++ [⟨o.w, some (jsonContext.objectItem key oid), false⟩] },
       some st1.vals.length)
    else (st, none)

/-- Source `obj.Marshal` (lines 231-240).  `res` is the outcome of
`json.Marshal anyMap`.  On error, return it and write nothing.  On success,
when the encoded object has content between its braces (`len > 2`) and the
builder's prewrite allows, write the bytes with the outer braces stripped
(`bytes[1 : len-1]`). -/
def obj_Marshal (st : St) (oid : Nat) (res : Except String Bytes) : St × Option String :=
  match res with
  | Except.error e => (st, some e)
  | Except.ok bs =>
    if 2 < bs.length then
      let r := obj_prewrite st oid
      if r.2 then
        let ow := Option.elim (getObj r.1 oid) true obj.w
        (wWrite ow r.1 ((bs.drop 1).dropLast), none)
      else (r.1, none)
    else (st, none)

/-- Source `val.Finished` (lines 275-277): a slot is finished when its
context has been detached. -/
def val_Finished (st : St) (vid : Nat) : Bool :=
  match getVal st vid with
  | some v => v.ctx.isNone
  | none => false

/-- Source `NewStreamWriter` (lines 293-298): the initial world holds one
root `val` with the sink attached, a single-value context, not paused. -/
def initSt : St :=
  { out := [], panicked := false,
    vals := [⟨true, some jsonContext.single, false⟩], objs := [] }

/-- The handle `NewStreamWriter` returns: the root slot. -/
def rootHandle : Option Nat := some 0

/-- Source struct `writerWrapper` (lines 259-262): the chunks it has
forwarded to the underlying sink, and its latched error. -/
structure writerWrapper where
  chunks : List Bytes
  Err : Option String
deriving Repr, DecidableEq

/-- Source `writerWrapper.Write` (lines 266-272): forward the bytes to the
underlying sink; `sinkErr` is the error the underlying sink returns for
this call; when it is non-nil it is stored in `Err`. -/
def writerWrapper_Write (ww : writerWrapper) (p : Bytes) (sinkErr : Option String) :
    writerWrapper :=
  { chunks := ww.chunks ++ [p],
    Err := match sinkErr with
           | some e => some e
           | none => ww.Err }

/-- Source `val.Error` (lines 281-288): report the wrapper's latched
error. -/
def val_Error (ww : writerWrapper) : Option String := ww.Err

/-- Run a sequence of writes through the wrapper; each element carries the
bytes written and the error the underlying sink returns for that call. -/
def runWW (ww : writerWrapper) (calls : List (Bytes × Option String)) : writerWrapper :=
  calls.foldl (fun acc c => writerWrapper_Write acc c.1 c.2) ww

/-- The wrapper as `NewStreamWriter` creates it. -/
def initWW : writerWrapper := { chunks := [], Err := none }

/-- A concrete stand-in for `encoding/json`'s string encoder, used only to
instantiate closed scenarios; the scenarios below either emit no key bytes
at all or carry this encoder's output explicitly in their statements. -/
def jencD : String → Bytes := fun s => '"' :: (s.toList ++ ['"'])

/-- One operation of the `val` API surface (every value-writing method a
`V` handle exposes), with the data each method consumes.  Composite
operations carry the optional callback as a state transformer receiving
the freshly minted handle. -/
inductive VOp where
  | nullOp : VOp
  | boolOp (b : Bool) : VOp
  | intOp (i : Int) : VOp
  | uintOp (n : Nat) : VOp
  | floatOp (enc : Bytes) : VOp
  | stringOp (s : String) : VOp
  | marshalOp (res : Except String Bytes) : VOp
  | arrayOp (fn : Option (Nat → St → St)) : VOp
  | objectOp (fn : Option (Nat → St → St)) : VOp

/-- Apply a `VOp` to a handle (the marshal error return is dropped here;
`val_Marshal` is used directly where the error matters). -/
def runVOp (jenc : String → Bytes) (op : VOp) (st : St) (h : Option Nat) : St :=
  match op with
  | VOp.nullOp => val_Null jenc st h
  | VOp.boolOp b => val_Bool jenc st h b
  | VOp.intOp i => val_Int jenc st h i
  | VOp.uintOp n => val_Uint jenc st h n
  | VOp.floatOp enc => val_Float jenc st h enc
  | VOp.stringOp s => val_String jenc st h s
  | VOp.marshalOp res => (val_Marshal jenc st h res).1
  | VOp.arrayOp fn => val_Array jenc st h fn
  | VOp.objectOp fn => val_Object jenc st h fn

theorem val_prewrite_nil (jenc : String → Bytes) (st : St) :
    val_prewrite jenc st none = (st, false, false) := rfl

theorem val_prewrite_fail_missing (jenc : String → Bytes) (st : St) (vid : Nat)
    (hv : getVal st vid = none) :
    val_prewrite jenc st (some vid) = (st, false, false) := by
  simp [val_prewrite, hv]

theorem val_prewrite_fail_w (jenc : String → Bytes) (st : St) (vid : Nat) (v : val)
    (hv : getVal st vid = some v) (hw : v.w = false) :
    val_prewrite jenc st (some vid) = (st, false, false) := by
  simp [val_prewrite, hv, hw]

theorem val_prewrite_fail_ctx (jenc : String → Bytes) (st : St) (vid : Nat) (v : val)
    (hv : getVal st vid = some v) (hc : v.ctx = none) :
    val_prewrite jenc st (some vid) = (st, false, false) := by
  simp [val_prewrite, hv, hc]

theorem val_prewrite_fail_paused (jenc : String → Bytes) (st : St) (vid : Nat) (v : val)
    (hv : getVal st vid = some v) (hp : v.paused = true) :
    val_prewrite jenc st (some vid) = (st, false, false) := by
  simp [val_prewrite, hv, hp]


/-- A scalar write is a no-op when the pre-write check refuses. -/
theorem val_writeEnc_fail (jenc : String → Bytes) (st : St) (h : Option Nat) (enc : Bytes)
    (hpw : val_prewrite jenc st h = (st, false, false)) :
    val_writeEnc jenc st h enc = st := by
  unfold val_writeEnc
  split <;> simp_all

/-- `val.Marshal` is a no-op returning a nil error when the pre-write check
refuses. -/
theorem val_Marshal_fail (jenc : String → Bytes) (st : St) (h : Option Nat)
    (res : Except String Bytes)
    (hpw : val_prewrite jenc st h = (st, false, false)) :
    val_Marshal jenc st h res = (st, none) := by
  unfold val_Marshal
  split <;> simp_all

/-- `val.Array` is a no-op when the pre-write check refuses. -/
theorem val_Array_fail (jenc : String → Bytes) (st : St) (h : Option Nat)
    (fn : Option (Nat → St → St))
    (hpw : val_prewrite jenc st h = (st, false, false)) :
    val_Array jenc st h fn = st := by
  unfold val_Array
  split <;> simp_all

/-- `val.Object` is a no-op when the pre-write check refuses. -/
theorem val_Object_fail (jenc : String → Bytes) (st : St) (h : Option Nat)
    (fn : Option (Nat → St → St))
    (hpw : val_prewrite jenc st h = (st, false, false)) :
    val_Object jenc st h fn = st := by
  unfold val_Object
  split <;> simp_all

/-- When the pre-write check refuses, every `val` operation leaves the
world untouched. -/
theorem runVOp_of_prewrite_fail (jenc : String → Bytes) (op : VOp) (st : St)
    (h : Option Nat) (hpw : val_prewrite jenc st h = (st, false, false)) :
    runVOp jenc op st h = st := by
  cases op with
  | nullOp => exact val_writeEnc_fail jenc st h _ hpw
  | boolOp b => exact val_writeEnc_fail jenc st h _ hpw
  | intOp i => exact val_writeEnc_fail jenc st h _ hpw
  | uintOp n => exact val_writeEnc_fail jenc st h _ hpw
  | floatOp enc => exact val_writeEnc_fail jenc st h _ hpw
  | stringOp s => exact val_writeEnc_fail jenc st h _ hpw
  | marshalOp res => exact congrArg Prod.fst (val_Marshal_fail jenc st h res hpw)
  | arrayOp fn => exact val_Array_fail jenc st h fn hpw
  | objectOp fn => exact val_Object_fail jenc st h fn hpw

/-- Every `val` operation on a paused handle leaves the world untouched. -/
theorem runVOp_paused (jenc : String → Bytes) (op : VOp) (st : St) (vid : Nat) (v : val)
    (hv : getVal st vid = some v) (hp : v.paused = true) :
    runVOp jenc op st (some vid) = st :=
  runVOp_of_prewrite_fail jenc op st (some vid)
    (val_prewrite_fail_paused jenc st vid v hv hp)

/-- Every `val` operation on a handle whose writer reference was cleared
leaves the world untouched. -/
theorem runVOp_noWriter (jenc : String → Bytes) (op : VOp) (st : St) (vid : Nat) (v : val)
    (hv : getVal st vid = some v) (hw : v.w = false) :
    runVOp jenc op st (some vid) = st :=
  runVOp_of_prewrite_fail jenc op st (some vid)
    (val_prewrite_fail_w jenc st vid v hv hw)

/-- Every `val` operation on a finished handle leaves the world
untouched. -/
theorem runVOp_finished (jenc : String → Bytes) (op : VOp) (st : St) (vid : Nat) (v : val)
    (hv : getVal st vid = some v) (hc : v.ctx = none) :
    runVOp jenc op st (some vid) = st :=
  runVOp_of_prewrite_fail jenc op st (some vid)
    (val_prewrite_fail_ctx jenc st vid v hv hc)

/-- C10: every value-writing operation on a nil `V` handle is a safe no-op:
the world is unchanged (so nothing is written and no panic is recorded),
`Marshal` additionally returns a nil error, and the nil handle that
`obj.Item` returns while the builder has an unresolved active item comes
with an unchanged world as well. -/
theorem c10_nil_handle_noop :
    (∀ (jenc : String → Bytes) (op : VOp) (st : St), runVOp jenc op st none = st) ∧
    (∀ (jenc : String → Bytes) (st : St) (res : Except String Bytes),
      val_Marshal jenc st none res = (st, none)) ∧
    (∀ (st : St) (oid : Nat) (key : String) (o : obj),
      getObj st oid = some o → o.paused = true → obj_Item st oid key = (st, none)) := by
  refine ⟨?_, ?_, ?_⟩
  · intro jenc op st
    exact runVOp_of_prewrite_fail jenc op st none rfl
  · intro jenc st res
    exact val_Marshal_fail jenc st none res rfl
  · intro st oid key o ho hp
    simp [obj_Item, ho, hp]

/-- C10 witness: a concrete paused builder hands out the nil handle and is
left unchanged. -/
theorem c10_nil_handle_noop_witness :
    obj_Item ⟨[], false, [], [⟨true, false, true⟩]⟩ 0 "k"
      = (⟨[], false, [], [⟨true, false, true⟩]⟩, none) :=
  c10_nil_handle_noop.2.2 ⟨[], false, [], [⟨true, false, true⟩]⟩ 0 "k" ⟨true, false, true⟩ rfl rfl

/-- A scalar JSON value: null, boolean, signed integer, unsigned integer,
float (represented by its `encoding/json` encoding) or string. -/
inductive Scal where
  | nullS : Scal
  | boolS (b : Bool) : Scal
  | intS (i : Int) : Scal
  | uintS (n : Nat) : Scal
  | floatS (enc : Bytes) : Scal
  | strS (s : String) : Scal

/-- The standard JSON text of a scalar: literal tokens for null and
booleans, base-10 digits for integers, the standard encoder's output for
floats and strings. -/
def scalEnc (jenc : String → Bytes) : Scal → Bytes
  | Scal.nullS => "null".toList
  | Scal.boolS b => if b then "true".toList else "false".toList
  | Scal.intS i => (toString i).toList
  | Scal.uintS n => (toString n).toList
  | Scal.floatS enc => enc
  | Scal.strS s => jenc s

/-- Write a scalar through the corresponding `val` method. -/
def runScal (jenc : String → Bytes) (sc : Scal) (st : St) (h : Option Nat) : St :=
  match sc with
  | Scal.nullS => val_Null jenc st h
  | Scal.boolS b => val_Bool jenc st h b
  | Scal.intS i => val_Int jenc st h i
  | Scal.uintS n => val_Uint jenc st h n
  | Scal.floatS enc => val_Float jenc st h enc
  | Scal.strS s => val_String jenc st h s

/-- C5: writing any scalar through the corresponding method on the fresh
root slot of `NewStreamWriter` emits exactly the standard JSON text of the
scalar, and the slot reports `Finished` afterwards. -/
theorem c5_scalar_root (jenc : String → Bytes) (sc : Scal) :
    (runScal jenc sc initSt rootHandle).out = scalEnc jenc sc ∧
    val_Finished (runScal jenc sc initSt rootHandle) 0 = true := by
  cases sc with
  | nullS => exact ⟨rfl, rfl⟩
  | boolS b => cases b <;> exact ⟨rfl, rfl⟩
  | intS i => exact ⟨rfl, rfl⟩
  | uintS n => exact ⟨rfl, rfl⟩
  | floatS enc => exact ⟨rfl, rfl⟩
  | strS s => exact ⟨rfl, rfl⟩

/-- Two writes through the sink wrapper where the underlying sink returns
two distinct errors. -/
def c1run : writerWrapper := runWW initWW [(['a'], some "e1"), (['b'], some "e2")]

/-- C1 counterexample: after a write failing with error e1 and a later
write failing with error e2, both writes were forwarded, but `Error()`
reports e2 — not the first error e1 that the claim says remains latched and
is never overwritten. -/
theorem c1_counterexample :
    c1run.chunks = [['a'], ['b']] ∧
    val_Error c1run = some "e2" ∧ val_Error c1run ≠ some "e1" := by
  decide

/-- C1 amended: the wrapper forwards every write to the underlying sink,
and `Error()` reports the error of the most recent failing write (the LAST
error, not the first) — or the previously latched error when no write in
the sequence failed. -/
theorem c1_amended (ww : writerWrapper) (calls : List (Bytes × Option String)) :
    (runWW ww calls).chunks = ww.chunks ++ calls.map Prod.fst ∧
    (runWW ww calls).Err
      = Option.elim (List.getLast? (calls.filterMap Prod.snd)) ww.Err some := by
  induction calls generalizing ww with
  | nil => exact ⟨by simp [runWW], rfl⟩
  | cons c cs ih =>
    have hstep : runWW ww (c :: cs) = runWW (writerWrapper_Write ww c.1 c.2) cs := rfl
    refine ⟨?_, ?_⟩
    · rw [hstep, (ih (writerWrapper_Write ww c.1 c.2)).1]
      simp [writerWrapper_Write]
    · rw [hstep, (ih (writerWrapper_Write ww c.1 c.2)).2]
      rcases hc : c.2 with _ | e
      · simp [writerWrapper_Write, hc]
      · simp only [writerWrapper_Write, hc, List.filterMap_cons]
        rcases hfm : cs.filterMap Prod.snd with _ | ⟨x, xs⟩
        · simp
        · rw [List.getLast?_cons_cons]
          rcases hgl : (x :: xs).getLast? with _ | y
          · exact absurd (List.getLast?_eq_none_iff.mp hgl) (by simp)
          · simp

theorem getVal_lt (st : St) (i : Nat) (v : val) (hv : getVal st i = some v) :
    i < st.vals.length := by
  unfold getVal at hv
  exact (List.getElem?_eq_some.mp hv).1

theorem getObj_lt (st : St) (i : Nat) (o : obj) (ho : getObj st i = some o) :
    i < st.objs.length := by
  unfold getObj at ho
  exact (List.getElem?_eq_some.mp ho).1

theorem getVal_setVal_self (st : St) (i : Nat) (v : val) (hlt : i < st.vals.length) :
    getVal (setVal st i v) i = some v := by
  simp [getVal, setVal, List.getElem?_set_self hlt]

theorem getVal_setVal_ne (st : St) (i j : Nat) (v : val) (hij : i ≠ j) :
    getVal (setVal st i v) j = getVal st j := by
  simp [getVal, setVal, List.getElem?_set_ne hij]

theorem setVal_setVal (st : St) (i : Nat) (a b : val) :
    setVal (setVal st i a) i b = setVal st i b := by
  simp [setVal, List.set_set]

theorem getVal_setObj (st : St) (i : Nat) (o : obj) (j : Nat) :
    getVal (setObj st i o) j = getVal st j := rfl

theorem getObj_setVal (st : St) (i : Nat) (v : val) (j : Nat) :
    getObj (setVal st i v) j = getObj st j := rfl

theorem getObj_setObj_self (st : St) (i : Nat) (o : obj) (hlt : i < st.objs.length) :
    getObj (setObj st i o) i = some o := by
  simp [getObj, setObj, List.getElem?_set_self hlt]

theorem getObj_setObj_ne (st : St) (i j : Nat) (o : obj) (hij : i ≠ j) :
    getObj (setObj st i o) j = getObj st j := by
  simp [getObj, setObj, List.getElem?_set_ne hij]

theorem setObj_setObj (st : St) (i : Nat) (a b : obj) :
    setObj (setObj st i a) i b = setObj st i b := by
  simp [setObj, List.set_set]

theorem getVal_wWrite (p : Bool) (st : St) (b : Bytes) (i : Nat) :
    getVal (wWrite p st b) i = getVal st i := by
  cases p <;> simp [wWrite, getVal]

theorem getObj_wWrite (p : Bool) (st : St) (b : Bytes) (i : Nat) :
    getObj (wWrite p st b) i = getObj st i := by
  cases p <;> simp [wWrite, getObj]

theorem val_writeEnc_ok (jenc : String → Bytes) (st st1 : St) (vid : Nat) (sg : Bool)
    (enc : Bytes) (hpw : val_prewrite jenc st (some vid) = (st1, true, sg)) :
    val_writeEnc jenc st (some vid) enc = val_writeEnc_go st1 vid sg enc := by
  unfold val_writeEnc
  rw [hpw]

theorem val_Marshal_ok (jenc : String → Bytes) (st st1 : St) (vid : Nat) (sg : Bool)
    (res : Except String Bytes) (hpw : val_prewrite jenc st (some vid) = (st1, true, sg)) :
    val_Marshal jenc st (some vid) res = val_Marshal_go st1 vid sg res := by
  unfold val_Marshal
  rw [hpw]

theorem val_Array_ok (jenc : String → Bytes) (st st1 : St) (vid : Nat) (sg : Bool)
    (fn : Option (Nat → St → St)) (hpw : val_prewrite jenc st (some vid) = (st1, true, sg)) :
    val_Array jenc st (some vid) fn = val_Array_go st1 vid sg fn := by
  unfold val_Array
  rw [hpw]

theorem val_Object_ok (jenc : String → Bytes) (st st1 : St) (vid : Nat) (sg : Bool)
    (fn : Option (Nat → St → St)) (hpw : val_prewrite jenc st (some vid) = (st1, true, sg)) :
    val_Object jenc st (some vid) fn = val_Object_go st1 vid sg fn := by
  unfold val_Object
  rw [hpw]

theorem val_prewrite_single_ok (jenc : String → Bytes) (st : St) (vid : Nat) (v : val)
    (hv : getVal st vid = some v) (hw : v.w = true)
    (hctx : v.ctx = some jsonContext.single) (hp : v.paused = false) :
    val_prewrite jenc st (some vid) = (st, true, true) := by
  simp [val_prewrite, hv, hw, hctx, hp]

theorem val_prewrite_array_ok (jenc : String → Bytes) (st : St) (vid : Nat) (v : val)
    (ne : Bool) (hv : getVal st vid = some v) (hw : v.w = true)
    (hctx : v.ctx = some (jsonContext.array ne)) (hp : v.paused = false) :
    val_prewrite jenc st (some vid)
      = (⟨st.out ++ (if ne then [','] else []), st.panicked,
          st.vals.set vid ⟨v.w, some (jsonContext.array true), v.paused⟩, st.objs⟩,
         true, false) := by
  cases ne <;> simp [val_prewrite, hv, hw, hctx, hp, wWrite, setVal]

theorem val_prewrite_objItem_ok (jenc : String → Bytes) (st : St) (vid : Nat) (v : val)
    (k : String) (oid : Nat) (hv : getVal st vid = some v) (hw : v.w = true)
    (hctx : v.ctx = some (jsonContext.objectItem k oid)) (hp : v.paused = false) :
    val_prewrite jenc st (some vid)
      = (objectItem_prewrite jenc st v.w k oid, true, true) := by
  simp [val_prewrite, hv, hw, hctx, hp]

theorem obj_prewrite_refuse (st : St) (oid : Nat) (o : obj)
    (ho : getObj st oid = some o) (how : o.w = false) (hop : o.paused = true) :
    obj_prewrite st oid = (st, false) := by
  simp [obj_prewrite, ho, how, hop]

theorem obj_prewrite_allow (st : St) (oid : Nat) (o : obj)
    (ho : getObj st oid = some o) (hcond : o.w = true ∨ o.paused = false) :
    obj_prewrite st oid
      = (setObj (if o.nonEmpty then wWrite o.w st [','] else st) oid ⟨o.w, true, o.paused⟩,
         true) := by
  rcases hcond with hc | hc <;> simp [obj_prewrite, ho, hc]

theorem objectItem_prewrite_refuse (jenc : String → Bytes) (st : St) (wp : Bool)
    (k : String) (oid : Nat) (o : obj)
    (ho : getObj st oid = some o) (how : o.w = false) (hop : o.paused = true) :
    objectItem_prewrite jenc st wp k oid = st := by
  simp [objectItem_prewrite, obj_prewrite_refuse st oid o ho how hop]

theorem objectItem_prewrite_allow (jenc : String → Bytes) (st : St) (wp : Bool)
    (k : String) (oid : Nat) (o : obj)
    (ho : getObj st oid = some o) (hcond : o.w = true ∨ o.paused = false) :
    objectItem_prewrite jenc st wp k oid
      = wWrite wp (wWrite wp
          (setObj (if o.nonEmpty then wWrite o.w st [','] else st) oid ⟨o.w, true, o.paused⟩)
          (jenc k)) [':'] := by
  simp [objectItem_prewrite, obj_prewrite_allow st oid o ho hcond]

theorem val_postwrite_single (st : St) (vid : Nat) (v : val)
    (hv : getVal st vid = some v) (hctx : v.ctx = some jsonContext.single) :
    val_postwrite st vid true = setVal st vid ⟨v.w, none, false⟩ := by
  have hlt : vid < st.vals.length := getVal_lt st vid v hv
  have h2 : getVal (setVal st vid ⟨v.w, some jsonContext.single, false⟩) vid
      = some ⟨v.w, some jsonContext.single, false⟩ :=
    getVal_setVal_self _ _ _ (by simpa [setVal] using hlt)
  simp [val_postwrite, hv, hctx, ctx_pause, h2, setVal_setVal]

theorem val_postwrite_array (st : St) (vid : Nat) (v : val) (b : Bool)
    (hv : getVal st vid = some v) (hctx : v.ctx = some (jsonContext.array b)) :
    val_postwrite st vid false = setVal st vid ⟨v.w, some (jsonContext.array b), false⟩ := by
  simp [val_postwrite, hv, hctx, ctx_pause]

theorem val_postwrite_objItem (st : St) (vid : Nat) (v : val) (k : String) (oid : Nat)
    (o : obj) (hv : getVal st vid = some v)
    (hctx : v.ctx = some (jsonContext.objectItem k oid)) (ho : getObj st oid = some o) :
    val_postwrite st vid true
      = setVal (setObj st oid ⟨o.w, o.nonEmpty, false⟩) vid ⟨v.w, none, v.paused⟩ := by
  simp [val_postwrite, hv, hctx, ctx_pause, ho, getVal_setObj]

/-- C2 counterexample: a failed `Marshal` on the fresh root slot writes no
bytes and returns the error, but the slot does NOT remain open — it is
retired, so `Finished()` reports true, contradicting the claim that its
state is unchanged. -/
theorem c2_counterexample :
    (val_Marshal jencD initSt rootHandle (Except.error "boom")).2 = some "boom" ∧
    ((val_Marshal jencD initSt rootHandle (Except.error "boom")).1).out = [] ∧
    val_Finished (val_Marshal jencD initSt rootHandle (Except.error "boom")).1 0 = true := by
  decide

/-- C2 amended: when marshaling fails on a writable slot, the error is
returned and no value bytes are emitted, but the pre-write and post-write
side effects still happen: a single-use slot is retired (its context is
detached, so `Finished()` turns true); in an array context the separating
comma is still written when an element was already emitted and the
has-emitted flag is still set; and on an object-item slot (live builder)
the comma, the encoded key and the colon are still emitted, the builder's
has-emitted flag is set, and the item slot is retired. -/
theorem c2_amended :
    (∀ (jenc : String → Bytes) (st : St) (vid : Nat) (v : val) (e : String),
      getVal st vid = some v → v.w = true → v.ctx = some jsonContext.single →
      v.paused = false →
      val_Marshal jenc st (some vid) (Except.error e)
        = (setVal st vid ⟨v.w, none, false⟩, some e)) ∧
    (∀ (jenc : String → Bytes) (st : St) (vid : Nat) (v : val) (ne : Bool) (e : String),
      getVal st vid = some v → v.w = true → v.ctx = some (jsonContext.array ne) →
      v.paused = false →
      val_Marshal jenc st (some vid) (Except.error e)
        = (⟨st.out ++ (if ne then [','] else []), st.panicked,
            st.vals.set vid ⟨v.w, some (jsonContext.array true), false⟩, st.objs⟩, some e)) ∧
    (∀ (jenc : String → Bytes) (st : St) (vid : Nat) (v : val) (k : String) (oid : Nat)
       (o : obj) (e : String),
      getVal st vid = some v → v.w = true → v.ctx = some (jsonContext.objectItem k oid) →
      v.paused = false → getObj st oid = some o → o.w = true →
      val_Marshal jenc st (some vid) (Except.error e)
        = (⟨st.out ++ (if o.nonEmpty then [','] else []) ++ jenc k ++ [':'], st.panicked,
            st.vals.set vid ⟨v.w, none, false⟩,
            st.objs.set oid ⟨o.w, true, false⟩⟩, some e)) := by
  refine ⟨?_, ?_, ?_⟩
  · intro jenc st vid v e hv hw hctx hp
    rw [val_Marshal_ok jenc st st vid true (Except.error e)
          (val_prewrite_single_ok jenc st vid v hv hw hctx hp)]
    show (val_postwrite st vid true, some e) = _
    rw [val_postwrite_single st vid v hv hctx]
  · intro jenc st vid v ne e hv hw hctx hp
    have hpw := val_prewrite_array_ok jenc st vid v ne hv hw hctx hp
    rw [val_Marshal_ok jenc st _ vid false (Except.error e) hpw]
    show (val_postwrite _ vid false, some e) = _
    have hlt : vid < st.vals.length := getVal_lt st vid v hv
    have hv' : getVal (⟨st.out ++ (if ne then [','] else []), st.panicked,
        st.vals.set vid ⟨v.w, some (jsonContext.array true), v.paused⟩, st.objs⟩ : St) vid
        = some ⟨v.w, some (jsonContext.array true), v.paused⟩ := by
      simp [getVal, List.getElem?_set_self hlt]
    rw [val_postwrite_array _ vid ⟨v.w, some (jsonContext.array true), v.paused⟩ true hv' rfl]
    simp [setVal, List.set_set, hp]
  · intro jenc st vid v k oid o e hv hw hctx hp ho how
    have hlto : oid < st.objs.length := getObj_lt st oid o ho
    have hpw := val_prewrite_objItem_ok jenc st vid v k oid hv hw hctx hp
    rw [val_Marshal_ok jenc st _ vid true (Except.error e) hpw]
    show (val_postwrite (objectItem_prewrite jenc st v.w k oid) vid true, some e) = _
    rw [objectItem_prewrite_allow jenc st v.w k oid o ho (Or.inl how), hw, how]
    rcases hne : o.nonEmpty with _ | _
    · simp only [hne, Bool.false_eq_true, if_false]
      have hv3 : getVal (wWrite true (wWrite true
          (setObj st oid ⟨true, true, o.paused⟩) (jenc k)) [':']) vid = some v := by
        rw [getVal_wWrite, getVal_wWrite, getVal_setObj]
        exact hv
      have ho3 : getObj (wWrite true (wWrite true
          (setObj st oid ⟨true, true, o.paused⟩) (jenc k)) [':']) oid
          = some ⟨true, true, o.paused⟩ := by
        rw [getObj_wWrite, getObj_wWrite]
        exact getObj_setObj_self st oid _ hlto
      rw [val_postwrite_objItem _ vid v k oid ⟨true, true, o.paused⟩ hv3 hctx ho3]
      simp [wWrite, setVal, setObj, List.set_set, hp, hw]
    · simp only [hne, if_true]
      have hlto1 : oid < (wWrite true st [',']).objs.length := by
        simpa [wWrite] using hlto
      have hv3 : getVal (wWrite true (wWrite true
          (setObj (wWrite true st [',']) oid ⟨true, true, o.paused⟩) (jenc k)) [':']) vid
          = some v := by
        rw [getVal_wWrite, getVal_wWrite, getVal_setObj, getVal_wWrite]
        exact hv
      have ho3 : getObj (wWrite true (wWrite true
          (setObj (wWrite true st [',']) oid ⟨true, true, o.paused⟩) (jenc k)) [':']) oid
          = some ⟨true, true, o.paused⟩ := by
        rw [getObj_wWrite, getObj_wWrite]
        exact getObj_setObj_self _ oid _ hlto1
      rw [val_postwrite_objItem _ vid v k oid ⟨true, true, o.paused⟩ hv3 hctx ho3]
      simp [wWrite, setVal, setObj, List.set_set, hp, hw, List.append_assoc]

/-- The C3 scenario: an object callback calls `Item "x"` without ever
writing a value to the returned handle, then calls `Item "y"` and writes
`Int 2` through the handle that call returns. -/
def c3run : St :=
  val_Object jencD initSt rootHandle (some (fun oid s =>
    let r1 := obj_Item s oid "x"
    let r2 := obj_Item r1.1 oid "y"
    val_Int jencD r2.1 r2.2 2))

/-- C3 counterexample: `Item "x"` abandoned and then `Item "y"` given
`Int 2` produces exactly the empty object, not the claimed output
containing the "y" pair. -/
theorem c3_counterexample :
    c3run.out = ['{', '}'] ∧ c3run.out ≠ ['{', '"', 'y', '"', ':', '2', '}'] := by
  decide

/-- C3 amended: an item whose handle never receives a value leaves the
builder paused, so every later `Item` call returns the nil handle and its
writes are dropped; the claimed scenario therefore emits the empty
object. -/
theorem c3_amended :
    (∀ (st : St) (oid : Nat) (key : String) (o : obj),
      getObj st oid = some o → o.paused = true → obj_Item st oid key = (st, none)) ∧
    c3run.out = ['{', '}'] := by
  constructor
  · intro st oid key o ho hp
    simp [obj_Item, ho, hp]
  · decide

/-- C3 witness: a concrete paused builder refuses the next item. -/
theorem c3_amended_witness :
    obj_Item ⟨[], false, [], [⟨true, true, true⟩]⟩ 0 "y"
      = (⟨[], false, [], [⟨true, true, true⟩]⟩, none) :=
  c3_amended.1 ⟨[], false, [], [⟨true, true, true⟩]⟩ 0 "y" ⟨true, true, true⟩ rfl rfl

/-- The C4 escape scenario: an object whose callback mints an item slot for
key "x" (heap index 1) and never writes it; the handle survives the
callback, which closes the object as the two bytes of an empty JSON
object. -/
def c4run : St :=
  val_Object jencD initSt rootHandle (some (fun oid s => (obj_Item s oid "x").1))

/-- C4 counterexample: a per-item Value Slot retained after its creating
callback returned still holds the writer; writing `Int 5` through it
appends a byte after the closed document, so the escaped handle is not
inert. -/
theorem c4_counterexample :
    c4run.out = ['{', '}'] ∧
    (val_Int jencD c4run (some 1) 5).out = ['{', '}', '5'] ∧
    (val_Int jencD c4run (some 1) 5).out ≠ c4run.out := by
  decide

/-- C4 amended: handles whose writer reference was cleared (the
array-callback slot and any slot minted by `Item` on an escaped builder)
are permanently inert — every operation through them is a no-op; but
per-item slots minted during the callback keep the original writer and can
still emit bytes afterwards, and `Marshal` on an escaped builder with a
non-empty map dereferences the nil writer (a Go panic). -/
theorem c4_amended :
    (∀ (jenc : String → Bytes) (op : VOp) (st : St) (vid : Nat) (v : val),
      getVal st vid = some v → v.w = false → runVOp jenc op st (some vid) = st) ∧
    (∀ (st : St) (oid : Nat) (key : String) (o : obj),
      getObj st oid = some o → o.w = false → o.paused = false →
      (obj_Item st oid key).2 = some st.vals.length ∧
      getVal (obj_Item st oid key).1 st.vals.length
        = some ⟨false, some (jsonContext.objectItem key oid), false⟩) ∧
    ((obj_Marshal ⟨[], false, [], [⟨false, false, false⟩]⟩ 0
        (Except.ok ['{', 'a', '}'])).1).panicked = true := by
  refine ⟨?_, ?_, ?_⟩
  · exact fun jenc op st vid v hv hw => runVOp_noWriter jenc op st vid v hv hw
  · intro st oid key o ho hw hp
    constructor
    · simp [obj_Item, ho, hp, setObj]
    · simp [obj_Item, ho, hp, hw, getVal, setObj, List.getElem?_concat_length]
  · decide

/-- C4 witness: an operation on a concrete severed slot is a no-op. -/
theorem c4_amended_witness :
    runVOp jencD (VOp.intOp 7)
        ⟨[], false, [⟨false, some (jsonContext.array false), false⟩], []⟩ (some 0)
      = ⟨[], false, [⟨false, some (jsonContext.array false), false⟩], []⟩ :=
  c4_amended.1 jencD (VOp.intOp 7)
    ⟨[], false, [⟨false, some (jsonContext.array false), false⟩], []⟩ 0
    ⟨false, some (jsonContext.array false), false⟩ rfl rfl

/-- C7: `Marshal` on a live Object Builder returns the error and writes
nothing when marshaling fails; writes nothing and leaves the has-emitted
flag unchanged when the map encodes to the empty object; and otherwise
strips the outer braces, writes the inner bytes verbatim preceded by a
comma exactly when an item was already emitted, and sets the has-emitted
flag. -/
theorem c7_obj_marshal (st : St) (oid : Nat) (o : obj) (ho : getObj st oid = some o)
    (hw : o.w = true) :
    (∀ e : String, obj_Marshal st oid (Except.error e) = (st, some e)) ∧
    (∀ bs : Bytes, bs.length ≤ 2 → obj_Marshal st oid (Except.ok bs) = (st, none)) ∧
    (∀ bs : Bytes, 2 < bs.length →
      obj_Marshal st oid (Except.ok bs)
        = (⟨st.out ++ (if o.nonEmpty then [','] else []) ++ (bs.drop 1).dropLast,
            st.panicked, st.vals, st.objs.set oid ⟨o.w, true, o.paused⟩⟩, none)) := by
  refine ⟨fun e => rfl, ?_, ?_⟩
  · intro bs hlen
    simp [obj_Marshal, Nat.not_lt.mpr hlen]
  · intro bs hlen
    have hlt : oid < st.objs.length := getObj_lt st oid o ho
    have hpw := obj_prewrite_allow st oid o ho (Or.inl hw)
    rcases hne : o.nonEmpty with _ | _
    · have hpw' : obj_prewrite st oid = (setObj st oid ⟨o.w, true, o.paused⟩, true) := by
        simpa [hne] using hpw
      have hog : getObj (setObj st oid ⟨o.w, true, o.paused⟩) oid
          = some ⟨o.w, true, o.paused⟩ := getObj_setObj_self st oid _ hlt
      simp only [obj_Marshal, if_pos hlen, hpw', hog]
      simp [hw, wWrite, setObj, hne]
    · have hpw' : obj_prewrite st oid
          = (setObj (wWrite o.w st [',']) oid ⟨o.w, true, o.paused⟩, true) := by
        simpa [hne] using hpw
      have hlt2 : oid < (wWrite o.w st [',']).objs.length := by
        rw [hw]; simpa [wWrite] using hlt
      have hog : getObj (setObj (wWrite o.w st [',']) oid ⟨o.w, true, o.paused⟩) oid
          = some ⟨o.w, true, o.paused⟩ := getObj_setObj_self _ oid _ hlt2
      simp only [obj_Marshal, if_pos hlen, hpw', hog]
      simp [hw, wWrite, setObj, hne]

/-- C7 witness: marshaling a one-pair map into a concrete fresh builder. -/
theorem c7_obj_marshal_witness :
    obj_Marshal ⟨[], false, [], [⟨true, false, false⟩]⟩ 0 (Except.ok ['{', 'a', '}'])
      = (⟨['a'], false, [], [⟨true, true, false⟩]⟩, none) :=
  (c7_obj_marshal ⟨[], false, [], [⟨true, false, false⟩]⟩ 0 ⟨true, false, false⟩ rfl rfl).2.2
    ['{', 'a', '}'] (by decide)

theorem val_Array_go_congr (st1 : St) (vid : Nat) (sg : Bool) (f g : Nat → St → St)
    (h : f (compositeOpen st1 vid '[').vals.length (arrayAlloc (compositeOpen st1 vid '[') vid)
       = g (compositeOpen st1 vid '[').vals.length (arrayAlloc (compositeOpen st1 vid '[') vid)) :
    val_Array_go st1 vid sg (some f) = val_Array_go st1 vid sg (some g) := by
  simp only [val_Array_go, h]

theorem val_Object_go_congr (st1 : St) (vid : Nat) (sg : Bool) (f g : Nat → St → St)
    (h : f (compositeOpen st1 vid '{').objs.length (objectAlloc (compositeOpen st1 vid '{') vid)
       = g (compositeOpen st1 vid '{').objs.length (objectAlloc (compositeOpen st1 vid '{') vid)) :
    val_Object_go st1 vid sg (some f) = val_Object_go st1 vid sg (some g) := by
  simp only [val_Object_go, h]

/-- Opening a composite on a slot whose pause flag is its own (single or
array context) appends the delimiter and sets that very slot's paused
flag. -/
theorem compositeOpen_own (st : St) (vid : Nat) (v : val) (d : Char)
    (hv : getVal st vid = some v) (hw : v.w = true)
    (hctx : v.ctx = some jsonContext.single ∨ ∃ b, v.ctx = some (jsonContext.array b)) :
    compositeOpen st vid d
      = ⟨st.out ++ [d], st.panicked, st.vals.set vid ⟨v.w, v.ctx, true⟩, st.objs⟩ := by
  obtain ⟨vw, vctx, vp⟩ := v
  simp only at hw hctx ⊢
  subst hw
  have hlt := getVal_lt st vid _ hv
  rcases hctx with hc | ⟨b, hc⟩
  · subst hc
    have hpause : ctx_pause st vid jsonContext.single true
        = setVal st vid ⟨true, some jsonContext.single, true⟩ := by
      simp [ctx_pause, hv]
    simp only [compositeOpen, hv, hpause]
    rw [getVal_setVal_self st vid (⟨true, some jsonContext.single, true⟩ : val) hlt]
    simp [wWrite, setVal]
  · subst hc
    have hpause : ctx_pause st vid (jsonContext.array b) true
        = setVal st vid ⟨true, some (jsonContext.array b), true⟩ := by
      simp [ctx_pause, hv]
    simp only [compositeOpen, hv, hpause]
    rw [getVal_setVal_self st vid (⟨true, some (jsonContext.array b), true⟩ : val) hlt]
    simp [wWrite, setVal]

theorem getVal_arrayAlloc_lt (st3 : St) (vid j : Nat) (hj : j < st3.vals.length) :
    getVal (arrayAlloc st3 vid) j = getVal st3 j := by
  simp [arrayAlloc, getVal, List.getElem?_append, hj]

theorem getVal_objectAlloc (st3 : St) (vid j : Nat) :
    getVal (objectAlloc st3 vid) j = getVal st3 j := rfl

/-- After the composite opener has paused a single/array-context slot and
allocated the inner array handle, every operation issued on the outer slot
is dropped. -/
theorem runVOp_on_arrayAlloc_paused (jenc : String → Bytes) (op : VOp) (st1 : St)
    (vid : Nat) (v1 : val) (hv1 : getVal st1 vid = some v1) (hw : v1.w = true)
    (hctx : v1.ctx = some jsonContext.single ∨ ∃ b, v1.ctx = some (jsonContext.array b)) :
    runVOp jenc op (arrayAlloc (compositeOpen st1 vid '[') vid) (some vid)
      = arrayAlloc (compositeOpen st1 vid '[') vid := by
  have hlt := getVal_lt st1 vid v1 hv1
  have hco := compositeOpen_own st1 vid v1 '[' hv1 hw hctx
  have hvS : getVal (compositeOpen st1 vid '[') vid = some ⟨v1.w, v1.ctx, true⟩ := by
    rw [hco]
    have := getVal_setVal_self st1 vid (⟨v1.w, v1.ctx, true⟩ : val) hlt
    simpa [setVal, getVal] using this
  have hltS : vid < (compositeOpen st1 vid '[').vals.length := by
    rw [hco]; simpa using hlt
  have hvA : getVal (arrayAlloc (compositeOpen st1 vid '[') vid) vid
      = some ⟨v1.w, v1.ctx, true⟩ := by
    rw [getVal_arrayAlloc_lt _ _ _ hltS]; exact hvS
  exact runVOp_paused jenc op _ vid _ hvA rfl

/-- Same for the object opener. -/
theorem runVOp_on_objectAlloc_paused (jenc : String → Bytes) (op : VOp) (st1 : St)
    (vid : Nat) (v1 : val) (hv1 : getVal st1 vid = some v1) (hw : v1.w = true)
    (hctx : v1.ctx = some jsonContext.single ∨ ∃ b, v1.ctx = some (jsonContext.array b)) :
    runVOp jenc op (objectAlloc (compositeOpen st1 vid '{') vid) (some vid)
      = objectAlloc (compositeOpen st1 vid '{') vid := by
  have hlt := getVal_lt st1 vid v1 hv1
  have hco := compositeOpen_own st1 vid v1 '{' hv1 hw hctx
  have hvS : getVal (compositeOpen st1 vid '{') vid = some ⟨v1.w, v1.ctx, true⟩ := by
    rw [hco]
    have := getVal_setVal_self st1 vid (⟨v1.w, v1.ctx, true⟩ : val) hlt
    simpa [setVal, getVal] using this
  have hvA : getVal (objectAlloc (compositeOpen st1 vid '{') vid) vid
      = some ⟨v1.w, v1.ctx, true⟩ := by
    rw [getVal_objectAlloc]; exact hvS
  exact runVOp_paused jenc op _ vid _ hvA rfl

/-- The C8 scenario: inside an object, the item handle for key "a" opens an
array, and the callback writes `Int 5` through the OUTER item handle while
the array is still open. -/
def c8runA : St :=
  val_Object jencD initSt rootHandle (some (fun oid s =>
    let r := obj_Item s oid "a"
    val_Array jencD r.1 r.2 (some (fun _ s2 => val_Int jencD s2 r.2 5))))

/-- The same scenario with the outer write removed. -/
def c8runB : St :=
  val_Object jencD initSt rootHandle (some (fun oid s =>
    let r := obj_Item s oid "a"
    val_Array jencD r.1 r.2 (some (fun _ s2 => s2))))

/-- C8 counterexample: writing through an object-item handle from inside
the `Array` callback that same handle opened emits bytes (the comma, the
repeated key and the value), so the outer write is not dropped; removing it
changes the output. -/
theorem c8_counterexample :
    c8runA.out = ['{', '"', 'a', '"', ':', '[', ',', '"', 'a', '"', ':', '5', ']', '}'] ∧
    c8runB.out = ['{', '"', 'a', '"', ':', '[', ']', '}'] ∧
    c8runA.out ≠ c8runB.out := by
  decide

/-- C8 amended: nested-scope isolation holds for handles whose pause flag
is their own (the root slot and array-element slots): every operation on a
paused slot is a complete no-op, and injecting such an outer write at the
start of an `Array`/`Object` callback leaves the output unchanged.
Object-item handles are NOT isolated, since pausing goes to the parent
builder (see the counterexample). -/
theorem c8_amended :
    (∀ (jenc : String → Bytes) (op : VOp) (st : St) (vid : Nat) (v : val),
      getVal st vid = some v → v.paused = true → runVOp jenc op st (some vid) = st) ∧
    (∀ (jenc : String → Bytes) (st : St) (vid : Nat) (v : val) (op : VOp)
       (f : Nat → St → St),
      getVal st vid = some v → v.w = true → v.paused = false →
      (v.ctx = some jsonContext.single ∨ ∃ b, v.ctx = some (jsonContext.array b)) →
      val_Array jenc st (some vid)
          (some (fun aid s => f aid (runVOp jenc op s (some vid))))
        = val_Array jenc st (some vid) (some f)) ∧
    (∀ (jenc : String → Bytes) (st : St) (vid : Nat) (v : val) (op : VOp)
       (f : Nat → St → St),
      getVal st vid = some v → v.w = true → v.paused = false →
      (v.ctx = some jsonContext.single ∨ ∃ b, v.ctx = some (jsonContext.array b)) →
      val_Object jenc st (some vid)
          (some (fun oid s => f oid (runVOp jenc op s (some vid))))
        = val_Object jenc st (some vid) (some f)) := by
  refine ⟨?_, ?_, ?_⟩
  · exact fun jenc op st vid v hv hp => runVOp_paused jenc op st vid v hv hp
  · intro jenc st vid v op f hv hw hp hctx
    rcases hctx with hc | ⟨b, hc⟩
    · have hpw := val_prewrite_single_ok jenc st vid v hv hw hc hp
      rw [val_Array_ok jenc st st vid true _ hpw, val_Array_ok jenc st st vid true _ hpw]
      apply val_Array_go_congr
      simp only [runVOp_on_arrayAlloc_paused jenc op st vid v hv hw (Or.inl hc)]
    · have hpw := val_prewrite_array_ok jenc st vid v b hv hw hc hp
      have hlt := getVal_lt st vid v hv
      have hv1 : getVal (⟨st.out ++ (if b then [','] else []), st.panicked,
          st.vals.set vid ⟨v.w, some (jsonContext.array true), v.paused⟩, st.objs⟩ : St) vid
          = some ⟨v.w, some (jsonContext.array true), v.paused⟩ := by
        simp [getVal, List.getElem?_set_self hlt]
      rw [val_Array_ok jenc st _ vid false _ hpw, val_Array_ok jenc st _ vid false _ hpw]
      apply val_Array_go_congr
      simp only [runVOp_on_arrayAlloc_paused jenc op _ vid _ hv1 hw
                   (Or.inr ⟨true, rfl⟩)]
  · intro jenc st vid v op f hv hw hp hctx
    rcases hctx with hc | ⟨b, hc⟩
    · have hpw := val_prewrite_single_ok jenc st vid v hv hw hc hp
      rw [val_Object_ok jenc st st vid true _ hpw, val_Object_ok jenc st st vid true _ hpw]
      apply val_Object_go_congr
      simp only [runVOp_on_objectAlloc_paused jenc op st vid v hv hw (Or.inl hc)]
    · have hpw := val_prewrite_array_ok jenc st vid v b hv hw hc hp
      have hlt := getVal_lt st vid v hv
      have hv1 : getVal (⟨st.out ++ (if b then [','] else []), st.panicked,
          st.vals.set vid ⟨v.w, some (jsonContext.array true), v.paused⟩, st.objs⟩ : St) vid
          = some ⟨v.w, some (jsonContext.array true), v.paused⟩ := by
        simp [getVal, List.getElem?_set_self hlt]
      rw [val_Object_ok jenc st _ vid false _ hpw, val_Object_ok jenc st _ vid false _ hpw]
      apply val_Object_go_congr
      simp only [runVOp_on_objectAlloc_paused jenc op _ vid _ hv1 hw
                   (Or.inr ⟨true, rfl⟩)]

/-- C8 witness: an operation on a concrete paused slot is a no-op. -/
theorem c8_amended_witness :
    runVOp jencD VOp.nullOp ⟨[], false, [⟨true, some jsonContext.single, true⟩], []⟩ (some 0)
      = ⟨[], false, [⟨true, some jsonContext.single, true⟩], []⟩ :=
  c8_amended.1 jencD VOp.nullOp ⟨[], false, [⟨true, some jsonContext.single, true⟩], []⟩ 0
    ⟨true, some jsonContext.single, true⟩ rfl rfl

theorem isSome_getVal_iff (st : St) (i : Nat) :
    (getVal st i).isSome = true ↔ i < st.vals.length := by
  constructor
  · intro h
    rcases ho : getVal st i with _ | a
    · rw [ho] at h; cases h
    · unfold getVal at ho
      exact (List.getElem?_eq_some.mp ho).1
  · intro h
    simp [getVal, List.getElem?_eq_getElem h]

theorem isSome_getVal_setVal (st : St) (i : Nat) (x : val) (j : Nat) :
    (getVal (setVal st i x) j).isSome = (getVal st j).isSome := by
  by_cases hij : i = j
  · subst hij
    by_cases hlt : i < st.vals.length
    · simp [getVal, setVal, List.getElem?_set_self hlt, List.getElem?_eq_getElem hlt]
    · have hle : st.vals.length ≤ i := Nat.not_lt.mp hlt
      simp only [getVal, setVal, List.getElem?_set, if_pos rfl, if_neg hlt]
      rw [List.getElem?_eq_none hle]
      simp
  · simp [getVal, setVal, List.getElem?_set_ne hij]

theorem isSome_getVal_ctx_pause (st : St) (vid : Nat) (c : jsonContext) (flag : Bool)
    (j : Nat) : (getVal (ctx_pause st vid c flag) j).isSome = (getVal st j).isSome := by
  cases c with
  | single =>
    rcases hgv : getVal st vid with _ | v <;> simp [ctx_pause, hgv, isSome_getVal_setVal]
  | array b =>
    rcases hgv : getVal st vid with _ | v <;> simp [ctx_pause, hgv, isSome_getVal_setVal]
  | objectItem k oid =>
    rcases hgo : getObj st oid with _ | o <;> simp [ctx_pause, hgo, getVal_setObj]

theorem isSome_getVal_compositeOpen (st1 : St) (vid : Nat) (d : Char) (j : Nat) :
    (getVal (compositeOpen st1 vid d) j).isSome = (getVal st1 j).isSome := by
  unfold compositeOpen
  rcases hgv : getVal st1 vid with _ | v
  · simp [getVal_wWrite]
  · rcases hc : v.ctx with _ | c
    · simp [hc, getVal_wWrite]
    · simp [hc, getVal_wWrite, isSome_getVal_ctx_pause]

theorem isSome_getVal_severVal (st : St) (aid j : Nat) :
    (getVal (severVal st aid) j).isSome = (getVal st j).isSome := by
  unfold severVal
  rcases hga : getVal st aid with _ | a
  · rfl
  · simp [isSome_getVal_setVal]

theorem isSome_getVal_arrayAlloc_of (st3 : St) (vid j : Nat)
    (hj : (getVal st3 j).isSome = true) :
    (getVal (arrayAlloc st3 vid) j).isSome = true := by
  have hlt : j < st3.vals.length := (isSome_getVal_iff st3 j).mp hj
  rw [getVal_arrayAlloc_lt st3 vid j hlt]
  exact hj

/-- Postwrite with `single = true` always detaches the slot's context: the
slot is finished afterwards. -/
theorem val_postwrite_retires (st : St) (vid : Nat)
    (hv : (getVal st vid).isSome = true) :
    ∃ v', getVal (val_postwrite st vid true) vid = some v' ∧ v'.ctx = none := by
  rcases hgv : getVal st vid with _ | v
  · rw [hgv] at hv; cases hv
  · rcases hc : v.ctx with _ | c
    · refine ⟨v, ?_, hc⟩
      simp [val_postwrite, hgv, hc]
    · have hs1 : (getVal (ctx_pause st vid c false) vid).isSome = true := by
        rw [isSome_getVal_ctx_pause]
        simp [hgv]
      rcases hgv1 : getVal (ctx_pause st vid c false) vid with _ | v1
      · rw [hgv1] at hs1; cases hs1
      · have hlt1 : vid < (ctx_pause st vid c false).vals.length :=
          (isSome_getVal_iff _ vid).mp (by rw [hgv1]; rfl)
        refine ⟨⟨v1.w, none, v1.paused⟩, ?_, rfl⟩
        simp [val_postwrite, hgv, hc, hgv1]
        exact getVal_setVal_self _ _ _ hlt1

theorem getVal_obj_prewrite (st : St) (oid j : Nat) :
    getVal (obj_prewrite st oid).1 j = getVal st j := by
  unfold obj_prewrite
  rcases hgo : getObj st oid with _ | o
  · rfl
  · by_cases hcond : (o.w = false ∧ o.paused = true)
    · simp [hcond]
    · rcases hne : o.nonEmpty with _ | _ <;>
        simp [hcond, hne, getVal_setObj, getVal_wWrite]

theorem getVal_objectItem_prewrite (jenc : String → Bytes) (st : St) (wp : Bool)
    (k : String) (oid j : Nat) :
    getVal (objectItem_prewrite jenc st wp k oid) j = getVal st j := by
  unfold objectItem_prewrite
  rcases hr : (obj_prewrite st oid).2 with _ | _
  · simp [hr, getVal_obj_prewrite]
  · simp [hr, getVal_wWrite, getVal_obj_prewrite]

theorem getVal_severObj (st : St) (oid j : Nat) :
    getVal (severObj st oid) j = getVal st j := by
  unfold severObj
  rcases hgo : getObj st oid with _ | o
  · rfl
  · simp [getVal_setObj]

/-- Whether the composite callback (if any) of an operation keeps the heap
entry of slot `vid` in existence (its fields may change freely).  Scalar and
marshal operations are unconditionally fine, and so is any callback built
from further API calls — including ones that write through the very same
handle, since no API operation ever removes a heap entry. -/
def VOpKeepsSlot (op : VOp) (vid : Nat) : Prop :=
  match op with
  | VOp.arrayOp (some f) =>
      ∀ a s, (getVal s vid).isSome = true → (getVal (f a s) vid).isSome = true
  | VOp.objectOp (some f) =>
      ∀ a s, (getVal s vid).isSome = true → (getVal (f a s) vid).isSome = true
  | _ => True

/-- A scalar emission body with `single = true` retires the slot. -/
theorem val_writeEnc_go_retires (st1 : St) (vid : Nat) (enc : Bytes)
    (hs1 : (getVal st1 vid).isSome = true) :
    ∃ v', getVal (val_writeEnc_go st1 vid true enc) vid = some v' ∧ v'.ctx = none := by
  simp only [val_writeEnc_go]
  apply val_postwrite_retires
  rw [getVal_wWrite]
  exact hs1

/-- A marshal body with `single = true` retires the slot, for success and
failure alike. -/
theorem val_Marshal_go_retires (st1 : St) (vid : Nat) (res : Except String Bytes)
    (hs1 : (getVal st1 vid).isSome = true) :
    ∃ v', getVal (val_Marshal_go st1 vid true res).1 vid = some v' ∧ v'.ctx = none := by
  cases res with
  | ok bs =>
    simp only [val_Marshal_go]
    apply val_postwrite_retires
    rw [getVal_wWrite]
    exact hs1
  | error e =>
    simp only [val_Marshal_go]
    exact val_postwrite_retires st1 vid hs1

/-- An array body with `single = true` retires the slot, provided the
callback keeps the slot's heap entry in existence. -/
theorem val_Array_go_retires (st1 : St) (vid : Nat) (fn : Option (Nat → St → St))
    (hs1 : (getVal st1 vid).isSome = true)
    (hpres : ∀ f, fn = some f →
      ∀ a s, (getVal s vid).isSome = true → (getVal (f a s) vid).isSome = true) :
    ∃ v', getVal (val_Array_go st1 vid true fn) vid = some v' ∧ v'.ctx = none := by
  rcases fn with _ | f
  · simp only [val_Array_go]
    apply val_postwrite_retires
    rw [getVal_wWrite, isSome_getVal_compositeOpen]
    exact hs1
  · simp only [val_Array_go]
    apply val_postwrite_retires
    rw [getVal_wWrite, isSome_getVal_severVal]
    apply hpres f rfl
    apply isSome_getVal_arrayAlloc_of
    rw [isSome_getVal_compositeOpen]
    exact hs1

/-- An object body with `single = true` retires the slot, provided the
callback keeps the slot's heap entry in existence. -/
theorem val_Object_go_retires (st1 : St) (vid : Nat) (fn : Option (Nat → St → St))
    (hs1 : (getVal st1 vid).isSome = true)
    (hpres : ∀ f, fn = some f →
      ∀ a s, (getVal s vid).isSome = true → (getVal (f a s) vid).isSome = true) :
    ∃ v', getVal (val_Object_go st1 vid true fn) vid = some v' ∧ v'.ctx = none := by
  rcases fn with _ | f
  · simp only [val_Object_go]
    apply val_postwrite_retires
    rw [getVal_wWrite, isSome_getVal_compositeOpen]
    exact hs1
  · simp only [val_Object_go]
    apply val_postwrite_retires
    rw [getVal_wWrite, getVal_severObj]
    apply hpres f rfl
    rw [getVal_objectAlloc, isSome_getVal_compositeOpen]
    exact hs1

/-- A successful write through a single-use context (the root slot's
single-value context or an object-item context) finishes the slot: its
context is detached afterwards. -/
theorem runVOp_retires (jenc : String → Bytes) (op : VOp) (st : St) (vid : Nat) (v : val)
    (hv : getVal st vid = some v) (hw : v.w = true)
    (hctx : v.ctx = some jsonContext.single ∨
            ∃ k oid, v.ctx = some (jsonContext.objectItem k oid))
    (hp : v.paused = false) (hpres : VOpKeepsSlot op vid) :
    ∃ v', getVal (runVOp jenc op st (some vid)) vid = some v' ∧ v'.ctx = none := by
  have hpw_pair : ∃ st1, val_prewrite jenc st (some vid) = (st1, true, true) ∧
      getVal st1 vid = some v := by
    rcases hctx with hc | ⟨k, oid, hc⟩
    · exact ⟨st, val_prewrite_single_ok jenc st vid v hv hw hc hp, hv⟩
    · refine ⟨objectItem_prewrite jenc st v.w k oid,
        val_prewrite_objItem_ok jenc st vid v k oid hv hw hc hp, ?_⟩
      rw [getVal_objectItem_prewrite]
      exact hv
  obtain ⟨st1, hpw, hv1⟩ := hpw_pair
  have hs1 : (getVal st1 vid).isSome = true := by rw [hv1]; rfl
  cases op with
  | nullOp =>
    rw [show runVOp jenc VOp.nullOp st (some vid)
          = val_writeEnc jenc st (some vid) ("null".toList) from rfl,
        val_writeEnc_ok jenc st st1 vid true _ hpw]
    exact val_writeEnc_go_retires st1 vid _ hs1
  | boolOp b =>
    rw [show runVOp jenc (VOp.boolOp b) st (some vid)
          = val_writeEnc jenc st (some vid)
              (if b then "true".toList else "false".toList) from rfl,
        val_writeEnc_ok jenc st st1 vid true _ hpw]
    exact val_writeEnc_go_retires st1 vid _ hs1
  | intOp i =>
    rw [show runVOp jenc (VOp.intOp i) st (some vid)
          = val_writeEnc jenc st (some vid) (toString i).toList from rfl,
        val_writeEnc_ok jenc st st1 vid true _ hpw]
    exact val_writeEnc_go_retires st1 vid _ hs1
  | uintOp n =>
    rw [show runVOp jenc (VOp.uintOp n) st (some vid)
          = val_writeEnc jenc st (some vid) (toString n).toList from rfl,
        val_writeEnc_ok jenc st st1 vid true _ hpw]
    exact val_writeEnc_go_retires st1 vid _ hs1
  | floatOp enc =>
    rw [show runVOp jenc (VOp.floatOp enc) st (some vid)
          = val_writeEnc jenc st (some vid) enc from rfl,
        val_writeEnc_ok jenc st st1 vid true _ hpw]
    exact val_writeEnc_go_retires st1 vid _ hs1
  | stringOp s =>
    rw [show runVOp jenc (VOp.stringOp s) st (some vid)
          = val_writeEnc jenc st (some vid) (jenc s) from rfl,
        val_writeEnc_ok jenc st st1 vid true _ hpw]
    exact val_writeEnc_go_retires st1 vid _ hs1
  | marshalOp res =>
    rw [show runVOp jenc (VOp.marshalOp res) st (some vid)
          = (val_Marshal jenc st (some vid) res).1 from rfl,
        val_Marshal_ok jenc st st1 vid true _ hpw]
    exact val_Marshal_go_retires st1 vid res hs1
  | arrayOp fn =>
    rw [show runVOp jenc (VOp.arrayOp fn) st (some vid)
          = val_Array jenc st (some vid) fn from rfl,
        val_Array_ok jenc st st1 vid true _ hpw]
    refine val_Array_go_retires st1 vid fn hs1 ?_
    intro f hf a s hss
    rw [hf] at hpres
    exact hpres a s hss
  | objectOp fn =>
    rw [show runVOp jenc (VOp.objectOp fn) st (some vid)
          = val_Object jenc st (some vid) fn from rfl,
        val_Object_ok jenc st st1 vid true _ hpw]
    refine val_Object_go_retires st1 vid fn hs1 ?_
    intro f hf a s hss
    rw [hf] at hpres
    exact hpres a s hss

/-- The pre-write phase keeps every heap entry in existence. -/
theorem isSome_getVal_val_prewrite_fst (jenc : String → Bytes) (st : St)
    (h : Option Nat) (j : Nat) :
    (getVal (val_prewrite jenc st h).1 j).isSome = (getVal st j).isSome := by
  cases h with
  | none => rfl
  | some vid =>
    rcases hgv : getVal st vid with _ | v
    · simp [val_prewrite, hgv]
    · by_cases hcond : (v.w = false ∨ v.ctx = none ∨ v.paused = true)
      · simp [val_prewrite, hgv, hcond]
      · push_neg at hcond
        obtain ⟨hw, hcn, hp⟩ := hcond
        rcases hc : v.ctx with _ | c
        · exact absurd hc hcn
        · cases c with
          | single => simp [val_prewrite, hgv, hc, hw, hp]
          | array ne =>
            rcases ne with _ | _ <;>
              simp [val_prewrite, hgv, hc, hw, hp, isSome_getVal_setVal, getVal_wWrite]
          | objectItem k oid =>
            simp [val_prewrite, hgv, hc, hw, hp, getVal_objectItem_prewrite]

/-- The post-write phase keeps every heap entry in existence. -/
theorem isSome_getVal_val_postwrite (st : St) (vid : Nat) (sg : Bool) (j : Nat) :
    (getVal (val_postwrite st vid sg) j).isSome = (getVal st j).isSome := by
  rcases hgv : getVal st vid with _ | v
  · simp [val_postwrite, hgv]
  · rcases hc : v.ctx with _ | c
    · simp [val_postwrite, hgv, hc]
    · cases sg
      · simp [val_postwrite, hgv, hc, isSome_getVal_ctx_pause]
      · rcases hgv1 : getVal (ctx_pause st vid c false) vid with _ | v1 <;>
          simp [val_postwrite, hgv, hc, hgv1, isSome_getVal_setVal,
                isSome_getVal_ctx_pause]

/-- A scalar write keeps every heap entry in existence. -/
theorem isSome_getVal_val_writeEnc (jenc : String → Bytes) (st : St) (h : Option Nat)
    (enc : Bytes) (j : Nat) :
    (getVal (val_writeEnc jenc st h enc) j).isSome = (getVal st j).isSome := by
  cases h with
  | none => rfl
  | some vid =>
    rcases hpw : val_prewrite jenc st (some vid) with ⟨st1, ok, sg⟩
    have hst1 : st1 = (val_prewrite jenc st (some vid)).1 := by rw [hpw]
    cases ok
    · rw [show val_writeEnc jenc st (some vid) enc = st1 by unfold val_writeEnc; rw [hpw]]
      rw [hst1, isSome_getVal_val_prewrite_fst]
    · rw [show val_writeEnc jenc st (some vid) enc = val_writeEnc_go st1 vid sg enc by
            unfold val_writeEnc; rw [hpw]]
      simp only [val_writeEnc_go]
      rw [isSome_getVal_val_postwrite, getVal_wWrite, hst1,
          isSome_getVal_val_prewrite_fst]

/-- `val.Marshal` keeps every heap entry in existence. -/
theorem isSome_getVal_val_Marshal (jenc : String → Bytes) (st : St) (h : Option Nat)
    (res : Except String Bytes) (j : Nat) :
    (getVal (val_Marshal jenc st h res).1 j).isSome = (getVal st j).isSome := by
  cases h with
  | none => rfl
  | some vid =>
    rcases hpw : val_prewrite jenc st (some vid) with ⟨st1, ok, sg⟩
    have hst1 : st1 = (val_prewrite jenc st (some vid)).1 := by rw [hpw]
    cases ok
    · rw [show val_Marshal jenc st (some vid) res = (st1, none) by
            unfold val_Marshal; rw [hpw]]
      rw [hst1]
      exact isSome_getVal_val_prewrite_fst jenc st (some vid) j
    · rw [show val_Marshal jenc st (some vid) res = val_Marshal_go st1 vid sg res by
            unfold val_Marshal; rw [hpw]]
      cases res with
      | ok bs =>
        simp only [val_Marshal_go]
        rw [isSome_getVal_val_postwrite, getVal_wWrite, hst1,
            isSome_getVal_val_prewrite_fst]
      | error e =>
        simp only [val_Marshal_go]
        rw [isSome_getVal_val_postwrite, hst1, isSome_getVal_val_prewrite_fst]

/-- `val.Array` with an absent callback keeps every heap entry in
existence. -/
theorem isSome_getVal_val_Array_none (jenc : String → Bytes) (st : St) (h : Option Nat)
    (j : Nat) :
    (getVal (val_Array jenc st h none) j).isSome = (getVal st j).isSome := by
  cases h with
  | none => rfl
  | some vid =>
    rcases hpw : val_prewrite jenc st (some vid) with ⟨st1, ok, sg⟩
    have hst1 : st1 = (val_prewrite jenc st (some vid)).1 := by rw [hpw]
    cases ok
    · rw [show val_Array jenc st (some vid) none = st1 by unfold val_Array; rw [hpw]]
      rw [hst1, isSome_getVal_val_prewrite_fst]
    · rw [show val_Array jenc st (some vid) none = val_Array_go st1 vid sg none by
            unfold val_Array; rw [hpw]]
      simp only [val_Array_go]
      rw [isSome_getVal_val_postwrite, getVal_wWrite, isSome_getVal_compositeOpen,
          hst1, isSome_getVal_val_prewrite_fst]

/-- `val.Object` with an absent callback keeps every heap entry in
existence. -/
theorem isSome_getVal_val_Object_none (jenc : String → Bytes) (st : St) (h : Option Nat)
    (j : Nat) :
    (getVal (val_Object jenc st h none) j).isSome = (getVal st j).isSome := by
  cases h with
  | none => rfl
  | some vid =>
    rcases hpw : val_prewrite jenc st (some vid) with ⟨st1, ok, sg⟩
    have hst1 : st1 = (val_prewrite jenc st (some vid)).1 := by rw [hpw]
    cases ok
    · rw [show val_Object jenc st (some vid) none = st1 by unfold val_Object; rw [hpw]]
      rw [hst1, isSome_getVal_val_prewrite_fst]
    · rw [show val_Object jenc st (some vid) none = val_Object_go st1 vid sg none by
            unfold val_Object; rw [hpw]]
      simp only [val_Object_go]
      rw [isSome_getVal_val_postwrite, getVal_wWrite, isSome_getVal_compositeOpen,
          hst1, isSome_getVal_val_prewrite_fst]

/-- Operations that do not run a caller-supplied callback: all scalars,
`Marshal`, and `Array`/`Object` invoked with the absent callback. -/
def VOpFlat : VOp → Prop
  | VOp.arrayOp (some _) => False
  | VOp.objectOp (some _) => False
  | _ => True

/-- Every flat operation keeps every heap entry in existence, on any
handle — in particular a callback that writes through the outer handle
itself satisfies `VOpKeepsSlot`. -/
theorem isSome_getVal_runVOp_flat (jenc : String → Bytes) (op : VOp) (st : St)
    (h : Option Nat) (j : Nat) (hf : VOpFlat op) :
    (getVal (runVOp jenc op st h) j).isSome = (getVal st j).isSome := by
  cases op with
  | nullOp => exact isSome_getVal_val_writeEnc jenc st h _ j
  | boolOp b => exact isSome_getVal_val_writeEnc jenc st h _ j
  | intOp i => exact isSome_getVal_val_writeEnc jenc st h _ j
  | uintOp n => exact isSome_getVal_val_writeEnc jenc st h _ j
  | floatOp enc => exact isSome_getVal_val_writeEnc jenc st h _ j
  | stringOp s => exact isSome_getVal_val_writeEnc jenc st h _ j
  | marshalOp res => exact isSome_getVal_val_Marshal jenc st h res j
  | arrayOp fn =>
    cases fn with
    | none => exact isSome_getVal_val_Array_none jenc st h j
    | some f => exact hf.elim
  | objectOp fn =>
    cases fn with
    | none => exact isSome_getVal_val_Object_none jenc st h j
    | some f => exact hf.elim

/-- C9: writing twice through a Value Slot backed by a single-value
context (root slot or object-item slot) produces exactly the state — hence
exactly the output bytes — of the first write alone: the second attempt is
a silent no-op.  Composite first writes are covered whenever their callback
keeps the outer slot's heap entry in existence; flat operations (scalars,
`Marshal`, callback-less composites) preserve every entry's existence on
any handle, so in particular a composite whose callback writes through the
very same handle satisfies the condition. -/
theorem c9_idempotent_ignoring :
    (∀ (jenc : String → Bytes) (op1 op2 : VOp) (st : St) (vid : Nat) (v : val),
      getVal st vid = some v →
      (v.ctx = some jsonContext.single ∨
        ∃ k oid, v.ctx = some (jsonContext.objectItem k oid)) →
      v.paused = false → VOpKeepsSlot op1 vid →
      runVOp jenc op2 (runVOp jenc op1 st (some vid)) (some vid)
        = runVOp jenc op1 st (some vid)) ∧
    (∀ (jenc : String → Bytes) (op : VOp) (st : St) (h : Option Nat) (j : Nat),
      VOpFlat op →
      (getVal (runVOp jenc op st h) j).isSome = (getVal st j).isSome) ∧
    (∀ (jenc : String → Bytes) (op' : VOp) (h' : Option Nat) (vid : Nat),
      VOpFlat op' →
      VOpKeepsSlot (VOp.arrayOp (some (fun a s => runVOp jenc op' s h'))) vid ∧
      VOpKeepsSlot (VOp.objectOp (some (fun a s => runVOp jenc op' s h'))) vid) := by
  refine ⟨?_, ?_, ?_⟩
  · intro jenc op1 op2 st vid v hv hctx hp hpres
    rcases hwv : v.w with _ | _
    · rw [runVOp_noWriter jenc op1 st vid v hv hwv,
          runVOp_noWriter jenc op2 st vid v hv hwv]
    · obtain ⟨v', hv', hcn⟩ := runVOp_retires jenc op1 st vid v hv hwv hctx hp hpres
      exact runVOp_finished jenc op2 _ vid v' hv' hcn
  · intro jenc op st h j hf
    exact isSome_getVal_runVOp_flat jenc op st h j hf
  · intro jenc op' h' vid hf
    constructor
    · intro a s hss
      rw [isSome_getVal_runVOp_flat jenc op' s h' vid hf]
      exact hss
    · intro a s hss
      rw [isSome_getVal_runVOp_flat jenc op' s h' vid hf]
      exact hss

/-- C9 witness: an `Array` whose callback writes through the very same root
handle, followed by a second write attempt — the second attempt changes
nothing; the callback's write satisfies the existence condition by the
theorem's own flat-operation conjunct. -/
theorem c9_idempotent_ignoring_witness :
    runVOp jencD (VOp.intOp 2)
        (runVOp jencD (VOp.arrayOp (some (fun a s => runVOp jencD (VOp.intOp 5) s (some 0))))
          initSt (some 0)) (some 0)
      = runVOp jencD (VOp.arrayOp (some (fun a s => runVOp jencD (VOp.intOp 5) s (some 0))))
          initSt (some 0) :=
  c9_idempotent_ignoring.1 jencD
    (VOp.arrayOp (some (fun a s => runVOp jencD (VOp.intOp 5) s (some 0))))
    (VOp.intOp 2) initSt 0 ⟨true, some jsonContext.single, false⟩ rfl (Or.inl rfl) rfl
    (c9_idempotent_ignoring.2.2 jencD (VOp.intOp 5) (some 0) 0 trivial).1

/-- Comma-separated concatenation of element encodings, continuation part:
every element preceded by a comma. -/
def preJoin : List Bytes → Bytes
  | [] => []
  | e :: rest => (',' :: e) ++ preJoin rest

/-- Comma-separated concatenation of element encodings: the elements joined
with exactly one comma between neighbours (N-1 commas for N elements). -/
def sepJoin : List Bytes → Bytes
  | [] => []
  | e :: rest => e ++ preJoin rest

/-- What a sequence of element writes appends inside an array context whose
has-emitted flag starts at `ne`. -/
def emitAll (ne : Bool) : List Bytes → Bytes
  | [] => []
  | e :: rest => (if ne then [','] else []) ++ e ++ emitAll true rest

theorem emitAll_true (l : List Bytes) : emitAll true l = preJoin l := by
  induction l with
  | nil => rfl
  | cons e rest ih => simp [emitAll, preJoin, ih]

theorem emitAll_false (l : List Bytes) : emitAll false l = sepJoin l := by
  cases l with
  | nil => rfl
  | cons e rest => simp [emitAll, sepJoin, emitAll_true]

/-- The slot at `aid` is a live inner array slot with has-emitted flag
`ne`. -/
def ArrSlot (st : St) (aid : Nat) (ne : Bool) : Prop :=
  getVal st aid = some ⟨true, some (jsonContext.array ne), false⟩

/-- `f` behaves like one successful element write of encoding `enc` through
the array slot `aid`: it appends the separating comma exactly when the
slot's has-emitted flag is set, then the encoding; it leaves the slot live
with the flag set; and it does not disturb heap entries below `aid`. -/
def EmitsElem (aid : Nat) (enc : Bytes) (f : St → St) : Prop :=
  ∀ st ne, ArrSlot st aid ne →
    (f st).out = st.out ++ (if ne then [','] else []) ++ enc ∧
    ArrSlot (f st) aid true ∧
    (∀ j, j < aid → getVal (f st) j = getVal st j)

/-- An element write independent of where the inner slot is allocated. -/
def EmitsAnyElem (enc : Bytes) (g : Nat → St → St) : Prop :=
  ∀ aid, EmitsElem aid enc (g aid)

/-- Run a list of element writes in order. -/
def foldElems (fs : List (St → St)) (st : St) : St :=
  fs.foldl (fun s f => f s) st

theorem foldElems_spec (aid : Nat) :
    ∀ (ps : List (Bytes × (St → St))),
    (∀ p ∈ ps, EmitsElem aid p.1 p.2) →
    ∀ st ne, ArrSlot st aid ne →
      (foldElems (ps.map Prod.snd) st).out = st.out ++ emitAll ne (ps.map Prod.fst) ∧
      ArrSlot (foldElems (ps.map Prod.snd) st) aid (ne || !ps.isEmpty) ∧
      (∀ j, j < aid → getVal (foldElems (ps.map Prod.snd) st) j = getVal st j) := by
  intro ps
  induction ps with
  | nil =>
    intro _ st ne hsl
    refine ⟨by simp [foldElems, emitAll], by simpa [foldElems] using hsl, ?_⟩
    intro j hj
    simp [foldElems]
  | cons p rest ih =>
    intro hall st ne hsl
    have hstep : foldElems ((p :: rest).map Prod.snd) st
        = foldElems (rest.map Prod.snd) (p.2 st) := rfl
    obtain ⟨hout1, hsl1, hpres1⟩ := hall p (List.mem_cons_self p rest) st ne hsl
    obtain ⟨hout2, hsl2, hpres2⟩ :=
      ih (fun q hq => hall q (List.mem_cons_of_mem p hq)) (p.2 st) true hsl1
    refine ⟨?_, ?_, ?_⟩
    · rw [hstep, hout2, hout1]
      simp [emitAll, List.append_assoc]
    · rw [hstep]
      simpa using hsl2
    · intro j hj
      rw [hstep, hpres2 j hj, hpres1 j hj]

theorem length_setVal (st : St) (i : Nat) (v : val) :
    (setVal st i v).vals.length = st.vals.length := by
  simp [setVal]

/-- A scalar write through a live array slot: separating comma exactly when
the has-emitted flag was set, then the encoding; the flag ends set. -/
theorem val_writeEnc_arr (jenc : String → Bytes) (st : St) (aid : Nat) (ne : Bool)
    (enc : Bytes) (hsl : ArrSlot st aid ne) :
    val_writeEnc jenc st (some aid) enc
      = ⟨st.out ++ (if ne then [','] else []) ++ enc, st.panicked,
         st.vals.set aid ⟨true, some (jsonContext.array true), false⟩, st.objs⟩ := by
  have hlt : aid < st.vals.length := getVal_lt st aid _ hsl
  have hpw := val_prewrite_array_ok jenc st aid _ ne hsl rfl rfl rfl
  rw [val_writeEnc_ok jenc st _ aid false enc hpw]
  have hvA : getVal (⟨st.out ++ (if ne then [','] else []), st.panicked,
      st.vals.set aid ⟨true, some (jsonContext.array true), false⟩, st.objs⟩ : St) aid
      = some ⟨true, some (jsonContext.array true), false⟩ := by
    simp [getVal, List.getElem?_set_self hlt]
  simp only [val_writeEnc_go, hvA, Option.elim]
  have hvB : getVal (wWrite true (⟨st.out ++ (if ne then [','] else []), st.panicked,
      st.vals.set aid ⟨true, some (jsonContext.array true), false⟩, st.objs⟩ : St) enc) aid
      = some ⟨true, some (jsonContext.array true), false⟩ := by
    rw [getVal_wWrite]
    exact hvA
  rw [val_postwrite_array _ aid _ true hvB rfl]
  simp [wWrite, setVal, List.set_set]

/-- Any fixed-encoding emission through `val_writeEnc` is a well-behaved
array element write, wherever the slot lives. -/
theorem emitsElem_writeEnc (jenc : String → Bytes) (enc : Bytes) :
    EmitsAnyElem enc (fun aid st => val_writeEnc jenc st (some aid) enc) := by
  intro aid st ne hsl
  have hlt : aid < st.vals.length := getVal_lt st aid _ hsl
  beta_reduce
  rw [val_writeEnc_arr jenc st aid ne enc hsl]
  refine ⟨rfl, ?_, ?_⟩
  · show getVal _ aid = _
    simp [getVal, List.getElem?_set_self hlt]
  · intro j hj
    show getVal _ j = getVal st j
    simp [getVal, List.getElem?_set_ne (Nat.ne_of_gt hj)]

/-- Each scalar write is a well-behaved array element write emitting its
standard JSON text. -/
theorem emitsElem_scal (jenc : String → Bytes) (sc : Scal) :
    EmitsAnyElem (scalEnc jenc sc) (fun aid st => runScal jenc sc st (some aid)) := by
  cases sc <;> exact emitsElem_writeEnc jenc _

/-- A successful `Marshal` on an array slot behaves exactly like a scalar
write of the marshaled bytes. -/
theorem val_Marshal_ok_eq_writeEnc (jenc : String → Bytes) (st : St) (aid : Nat)
    (bs : Bytes) (ne : Bool) (hsl : ArrSlot st aid ne) :
    (val_Marshal jenc st (some aid) (Except.ok bs)).1
      = val_writeEnc jenc st (some aid) bs := by
  have hpw := val_prewrite_array_ok jenc st aid _ ne hsl rfl rfl rfl
  rw [val_Marshal_ok jenc st _ aid false _ hpw, val_writeEnc_ok jenc st _ aid false _ hpw]
  rfl

/-- A successful `Marshal` is a well-behaved array element write emitting
the bytes the marshaler produced. -/
theorem emitsElem_marshalOk (jenc : String → Bytes) (bs : Bytes) :
    EmitsAnyElem bs (fun aid st => (val_Marshal jenc st (some aid) (Except.ok bs)).1) := by
  intro aid st ne hsl
  beta_reduce
  rw [val_Marshal_ok_eq_writeEnc jenc st aid bs ne hsl]
  exact emitsElem_writeEnc jenc bs aid st ne hsl

theorem out_setVal (st : St) (i : Nat) (v : val) : (setVal st i v).out = st.out := rfl

theorem out_setObj (st : St) (i : Nat) (o : obj) : (setObj st i o).out = st.out := rfl

theorem out_ctx_pause (st : St) (vid : Nat) (c : jsonContext) (flag : Bool) :
    (ctx_pause st vid c flag).out = st.out := by
  cases c with
  | single => rcases hgv : getVal st vid with _ | v <;> simp [ctx_pause, hgv, out_setVal]
  | array b => rcases hgv : getVal st vid with _ | v <;> simp [ctx_pause, hgv, out_setVal]
  | objectItem k oid => rcases hgo : getObj st oid with _ | o <;> simp [ctx_pause, hgo, out_setObj]

theorem out_val_postwrite (st : St) (vid : Nat) (sg : Bool) :
    (val_postwrite st vid sg).out = st.out := by
  rcases hgv : getVal st vid with _ | v
  · simp [val_postwrite, hgv]
  · rcases hc : v.ctx with _ | c
    · simp [val_postwrite, hgv, hc]
    · cases sg
      · simp [val_postwrite, hgv, hc, out_ctx_pause]
      · rcases hgv1 : getVal (ctx_pause st vid c false) vid with _ | v1 <;>
          simp [val_postwrite, hgv, hc, hgv1, out_ctx_pause, out_setVal]

theorem out_severVal (st : St) (aid : Nat) : (severVal st aid).out = st.out := by
  unfold severVal
  rcases hga : getVal st aid with _ | a <;> simp [out_setVal]

/-- The state after the callback of an inner `Array` ran a list of element
writes against the freshly allocated slot (which sits at index
`C.vals.length` of the opened state `C`). -/
def arrE (ps : List (Bytes × (Nat → St → St))) (C : St) (aid : Nat) : St :=
  foldElems (ps.map (fun p => p.2 C.vals.length)) (arrayAlloc C aid)

/-- The same state after the inner handle's writer reference is cleared. -/
def arrF (ps : List (Bytes × (Nat → St → St))) (C : St) (aid : Nat) : St :=
  severVal (arrE ps C aid) C.vals.length

/-- The closing part of an `Array` write whose callback folds a list of
element writes: sever, write `]`, postwrite. -/
def arrayTail (ps : List (Bytes × (Nat → St → St))) (C : St) (aid : Nat) (sg : Bool) : St :=
  val_postwrite (wWrite (Option.elim (getVal (arrF ps C aid) aid) true val.w)
    (arrF ps C aid) [']']) aid sg

theorem val_Array_go_eq_tail (ps : List (Bytes × (Nat → St → St))) (B : St) (aid : Nat)
    (sg : Bool) :
    val_Array_go B aid sg
        (some (fun bid s => foldElems (ps.map (fun p => p.2 bid)) s))
      = arrayTail ps (compositeOpen B aid '[') aid sg := rfl

theorem arrayTail_spec (ps : List (Bytes × (Nat → St → St)))
    (hall : ∀ p ∈ ps, EmitsAnyElem p.1 p.2) (C : St) (aid : Nat) (nb : Bool)
    (hCval : getVal C aid = some ⟨true, some (jsonContext.array nb), true⟩) :
    (arrayTail ps C aid false).out = C.out ++ sepJoin (ps.map Prod.fst) ++ [']'] ∧
    ArrSlot (arrayTail ps C aid false) aid nb ∧
    (∀ j, j < aid → getVal (arrayTail ps C aid false) j = getVal C j) := by
  have hltC : aid < C.vals.length := getVal_lt C aid _ hCval
  have hCval' : C.vals[aid]? = some ⟨true, some (jsonContext.array nb), true⟩ := hCval
  have hDbid : ArrSlot (arrayAlloc C aid) C.vals.length false := by
    show getVal _ _ = _
    simp [arrayAlloc, hCval, hCval', getVal, List.getElem?_concat_length]
  have hDval_aid : getVal (arrayAlloc C aid) aid
      = some ⟨true, some (jsonContext.array nb), true⟩ := by
    rw [getVal_arrayAlloc_lt C aid aid hltC]
    exact hCval
  have hq : ∀ q ∈ ps.map (fun p => (p.1, p.2 C.vals.length)),
      EmitsElem C.vals.length q.1 q.2 := by
    intro q hqm
    rcases List.mem_map.mp hqm with ⟨p, hp, rfl⟩
    exact hall p hp C.vals.length
  have hfold := foldElems_spec C.vals.length (ps.map (fun p => (p.1, p.2 C.vals.length)))
    hq (arrayAlloc C aid) false hDbid
  have hms : (ps.map (fun p => (p.1, p.2 C.vals.length))).map Prod.snd
      = ps.map (fun p => p.2 C.vals.length) := by
    rw [List.map_map]
    rfl
  have hmf : (ps.map (fun p => (p.1, p.2 C.vals.length))).map Prod.fst
      = ps.map Prod.fst := by
    rw [List.map_map]
    rfl
  rw [hms, hmf] at hfold
  obtain ⟨hEout, hEslot, hEpres⟩ := hfold
  have hEaid : getVal (arrE ps C aid) aid
      = some ⟨true, some (jsonContext.array nb), true⟩ := by
    rw [show arrE ps C aid = foldElems (ps.map (fun p => p.2 C.vals.length))
          (arrayAlloc C aid) from rfl,
        hEpres aid hltC]
    exact hDval_aid
  have hbne : C.vals.length ≠ aid := Nat.ne_of_gt hltC
  have hFaid : getVal (arrF ps C aid) aid
      = some ⟨true, some (jsonContext.array nb), true⟩ := by
    unfold arrF severVal
    rcases hgb : getVal (arrE ps C aid) C.vals.length with _ | a
    · exact hEaid
    · rw [getVal_setVal_ne _ _ _ _ hbne]
      exact hEaid
  have hFout : (arrF ps C aid).out = (arrE ps C aid).out := out_severVal _ _
  have hFpres : ∀ j, j < aid → getVal (arrF ps C aid) j = getVal (arrE ps C aid) j := by
    intro j hj
    unfold arrF severVal
    rcases hgb : getVal (arrE ps C aid) C.vals.length with _ | a
    · rfl
    · exact getVal_setVal_ne _ _ _ _ (Nat.ne_of_gt (Nat.lt_trans hj hltC))
  have hGaid : getVal (wWrite true (arrF ps C aid) [']']) aid
      = some ⟨true, some (jsonContext.array nb), true⟩ := by
    rw [getVal_wWrite]
    exact hFaid
  have htail : arrayTail ps C aid false
      = setVal (wWrite true (arrF ps C aid) [']']) aid
          ⟨true, some (jsonContext.array nb), false⟩ := by
    unfold arrayTail
    rw [hFaid]
    exact val_postwrite_array _ aid _ nb hGaid rfl
  have hltG : aid < (wWrite true (arrF ps C aid) [']']).vals.length :=
    (isSome_getVal_iff _ aid).mp (by rw [hGaid]; rfl)
  refine ⟨?_, ?_, ?_⟩
  · rw [htail, out_setVal]
    show ((arrF ps C aid).out ++ [']']) = _
    rw [hFout]
    rw [show (arrE ps C aid).out = (arrayAlloc C aid).out
          ++ emitAll false (ps.map Prod.fst) from hEout]
    rw [show (arrayAlloc C aid).out = C.out from rfl, emitAll_false]
  · show getVal _ aid = _
    rw [htail]
    exact getVal_setVal_self _ _ _ hltG
  · intro j hj
    rw [htail, getVal_setVal_ne _ _ _ _ (Nat.ne_of_gt hj), getVal_wWrite, hFpres j hj]
    rw [show arrE ps C aid = foldElems (ps.map (fun p => p.2 C.vals.length))
          (arrayAlloc C aid) from rfl,
        hEpres j (Nat.lt_trans hj hltC)]
    exact getVal_arrayAlloc_lt C aid j (Nat.lt_trans hj hltC)

/-- An inner `Array` whose callback performs well-behaved element writes is
itself a well-behaved element write, emitting the bracketed comma-joined
element encodings. -/
theorem emitsElem_array (jenc : String → Bytes) (ps : List (Bytes × (Nat → St → St)))
    (hall : ∀ p ∈ ps, EmitsAnyElem p.1 p.2) :
    EmitsAnyElem ('[' :: (sepJoin (ps.map Prod.fst) ++ [']']))
      (fun aid st => val_Array jenc st (some aid)
        (some (fun bid s => foldElems (ps.map (fun p => p.2 bid)) s))) := by
  intro aid st ne hsl
  beta_reduce
  have hltB : aid < st.vals.length := getVal_lt st aid _ hsl
  have hpw := val_prewrite_array_ok jenc st aid _ ne hsl rfl rfl rfl
  rw [val_Array_ok jenc st _ aid false _ hpw, val_Array_go_eq_tail]
  have hA : ArrSlot (⟨st.out ++ (if ne then [','] else []), st.panicked,
      st.vals.set aid ⟨true, some (jsonContext.array true), false⟩, st.objs⟩ : St) aid true := by
    show getVal _ aid = _
    simp [getVal, List.getElem?_set_self hltB]
  have hco := compositeOpen_own _ aid ⟨true, some (jsonContext.array true), false⟩ '[' hA rfl
      (Or.inr ⟨true, rfl⟩)
  have hCval : getVal (compositeOpen (⟨st.out ++ (if ne then [','] else []), st.panicked,
      st.vals.set aid ⟨true, some (jsonContext.array true), false⟩, st.objs⟩ : St) aid '[') aid
      = some ⟨true, some (jsonContext.array true), true⟩ := by
    rw [hco]
    show ((st.vals.set aid _).set aid _)[aid]? = _
    rw [List.getElem?_set_self (by simpa using hltB)]
  obtain ⟨t1, t2, t3⟩ := arrayTail_spec ps hall _ aid true hCval
  refine ⟨?_, ?_, ?_⟩
  · rw [t1, hco]
    simp [List.append_assoc]
  · exact t2
  · intro j hj
    rw [t3 j hj, hco]
    show ((st.vals.set aid _).set aid _)[j]? = _
    rw [List.getElem?_set_ne (Nat.ne_of_gt hj), List.getElem?_set_ne (Nat.ne_of_gt hj)]
    rfl

/-- The output of an `Array` opened on a single-value slot whose callback
folds well-behaved element writes. -/
theorem arrayTail_out_single (ps : List (Bytes × (Nat → St → St)))
    (hall : ∀ p ∈ ps, EmitsAnyElem p.1 p.2) (C : St) (aid : Nat)
    (hCval : getVal C aid = some ⟨true, some jsonContext.single, true⟩) :
    (arrayTail ps C aid true).out = C.out ++ sepJoin (ps.map Prod.fst) ++ [']'] := by
  have hltC : aid < C.vals.length := getVal_lt C aid _ hCval
  have hCval' : C.vals[aid]? = some ⟨true, some jsonContext.single, true⟩ := hCval
  have hDbid : ArrSlot (arrayAlloc C aid) C.vals.length false := by
    show getVal _ _ = _
    simp [arrayAlloc, hCval, hCval', getVal, List.getElem?_concat_length]
  have hDval_aid : getVal (arrayAlloc C aid) aid
      = some ⟨true, some jsonContext.single, true⟩ := by
    rw [getVal_arrayAlloc_lt C aid aid hltC]
    exact hCval
  have hq : ∀ q ∈ ps.map (fun p => (p.1, p.2 C.vals.length)),
      EmitsElem C.vals.length q.1 q.2 := by
    intro q hqm
    rcases List.mem_map.mp hqm with ⟨p, hp, rfl⟩
    exact hall p hp C.vals.length
  have hfold := foldElems_spec C.vals.length (ps.map (fun p => (p.1, p.2 C.vals.length)))
    hq (arrayAlloc C aid) false hDbid
  have hms : (ps.map (fun p => (p.1, p.2 C.vals.length))).map Prod.snd
      = ps.map (fun p => p.2 C.vals.length) := by
    rw [List.map_map]
    rfl
  have hmf : (ps.map (fun p => (p.1, p.2 C.vals.length))).map Prod.fst
      = ps.map Prod.fst := by
    rw [List.map_map]
    rfl
  rw [hms, hmf] at hfold
  obtain ⟨hEout, _, hEpres⟩ := hfold
  have hEaid : getVal (arrE ps C aid) aid
      = some ⟨true, some jsonContext.single, true⟩ := by
    rw [show arrE ps C aid = foldElems (ps.map (fun p => p.2 C.vals.length))
          (arrayAlloc C aid) from rfl,
        hEpres aid hltC]
    exact hDval_aid
  have hbne : C.vals.length ≠ aid := Nat.ne_of_gt hltC
  have hFaid : getVal (arrF ps C aid) aid
      = some ⟨true, some jsonContext.single, true⟩ := by
    unfold arrF severVal
    rcases hgb : getVal (arrE ps C aid) C.vals.length with _ | a
    · exact hEaid
    · rw [getVal_setVal_ne _ _ _ _ hbne]
      exact hEaid
  unfold arrayTail
  rw [hFaid, out_val_postwrite]
  show (wWrite true (arrF ps C aid) [']']).out = _
  rw [show (wWrite true (arrF ps C aid) [']']).out = (arrF ps C aid).out ++ [']'] from rfl]
  rw [show (arrF ps C aid).out = (arrE ps C aid).out from out_severVal _ _]
  rw [show arrE ps C aid = foldElems (ps.map (fun p => p.2 C.vals.length))
        (arrayAlloc C aid) from rfl,
      hEout]
  rw [show (arrayAlloc C aid).out = C.out from rfl, emitAll_false]

/-- The output of an `Array` call on the fresh root slot whose callback
performs any list of well-behaved element writes. -/
theorem arrayRootOut (jenc : String → Bytes) (ps : List (Bytes × (Nat → St → St)))
    (hall : ∀ p ∈ ps, EmitsAnyElem p.1 p.2) :
    (val_Array jenc initSt rootHandle
        (some (fun aid s => foldElems (ps.map (fun p => p.2 aid)) s))).out
      = '[' :: (sepJoin (ps.map Prod.fst) ++ [']']) := by
  have hpw : val_prewrite jenc initSt (some 0) = (initSt, true, true) :=
    val_prewrite_single_ok jenc initSt 0 ⟨true, some jsonContext.single, false⟩ rfl rfl rfl rfl
  rw [show rootHandle = some 0 from rfl,
      val_Array_ok jenc initSt initSt 0 true _ hpw,
      val_Array_go_eq_tail,
      arrayTail_out_single ps hall (compositeOpen initSt 0 '[') 0 rfl]
  rfl

theorem out_severObj (st : St) (oid : Nat) : (severObj st oid).out = st.out := by
  unfold severObj
  rcases hgo : getObj st oid with _ | o <;> simp [out_setObj]

/-- The builder at `oid` is a live object builder with has-emitted flag
`ne`, writer present and not paused. -/
def ObjBuilder (st : St) (oid : Nat) (ne : Bool) : Prop :=
  getObj st oid = some ⟨true, ne, false⟩

/-- `f` behaves like one completed item write of encoding `itemEnc` through
the object builder `oid`: it appends the separating comma exactly when the
builder's has-emitted flag is set, then the item encoding (key, colon and
value); it leaves the builder live with the flag set; it does not disturb
value-heap entries below the starting heap length; and it never shrinks the
value heap. -/
def EmitsItem (oid : Nat) (itemEnc : Bytes) (f : St → St) : Prop :=
  ∀ st ne, ObjBuilder st oid ne →
    (f st).out = st.out ++ (if ne then [','] else []) ++ itemEnc ∧
    ObjBuilder (f st) oid true ∧
    (∀ j, j < st.vals.length → getVal (f st) j = getVal st j) ∧
    st.vals.length ≤ (f st).vals.length

/-- An item write independent of where the builder is allocated. -/
def EmitsAnyItem (itemEnc : Bytes) (g : Nat → St → St) : Prop :=
  ∀ oid, EmitsItem oid itemEnc (g oid)

theorem foldItems_spec (oid : Nat) :
    ∀ (qs : List (Bytes × (St → St))),
    (∀ q ∈ qs, EmitsItem oid q.1 q.2) →
    ∀ st ne, ObjBuilder st oid ne →
      (foldElems (qs.map Prod.snd) st).out = st.out ++ emitAll ne (qs.map Prod.fst) ∧
      ObjBuilder (foldElems (qs.map Prod.snd) st) oid (ne || !qs.isEmpty) ∧
      (∀ j, j < st.vals.length → getVal (foldElems (qs.map Prod.snd) st) j = getVal st j) ∧
      st.vals.length ≤ (foldElems (qs.map Prod.snd) st).vals.length := by
  intro qs
  induction qs with
  | nil =>
    intro _ st ne hob
    refine ⟨by simp [foldElems, emitAll], by simpa [foldElems] using hob, ?_, ?_⟩
    · intro j hj
      simp [foldElems]
    · simp [foldElems]
  | cons q rest ih =>
    intro hall st ne hob
    have hstep : foldElems ((q :: rest).map Prod.snd) st
        = foldElems (rest.map Prod.snd) (q.2 st) := rfl
    obtain ⟨hout1, hob1, hpres1, hlen1⟩ := hall q (List.mem_cons_self q rest) st ne hob
    obtain ⟨hout2, hob2, hpres2, hlen2⟩ :=
      ih (fun r hr => hall r (List.mem_cons_of_mem q hr)) (q.2 st) true hob1
    refine ⟨?_, ?_, ?_, ?_⟩
    · rw [hstep, hout2, hout1]
      simp [emitAll, List.append_assoc]
    · rw [hstep]
      simpa using hob2
    · intro j hj
      rw [hstep, hpres2 j (Nat.lt_of_lt_of_le hj hlen1), hpres1 j hj]
    · rw [hstep]
      exact Nat.le_trans hlen1 hlen2

/-- A scalar write through a live object-item slot whose builder still has
its writer: emits comma-iff-nonEmpty, the encoded key, the colon and the
payload; the item slot is retired and the builder unpaused with its
has-emitted flag set. -/
theorem val_writeEnc_item (jenc : String → Bytes) (st : St) (vid : Nat) (v : val)
    (k : String) (oid : Nat) (o : obj) (enc : Bytes)
    (hv : getVal st vid = some v) (hw : v.w = true)
    (hctx : v.ctx = some (jsonContext.objectItem k oid)) (hp : v.paused = false)
    (ho : getObj st oid = some o) (how : o.w = true) :
    val_writeEnc jenc st (some vid) enc
      = ⟨st.out ++ (if o.nonEmpty then [','] else []) ++ jenc k ++ [':'] ++ enc,
          st.panicked, st.vals.set vid ⟨v.w, none, false⟩,
          st.objs.set oid ⟨o.w, true, false⟩⟩ := by
  have hlto : oid < st.objs.length := getObj_lt st oid o ho
  have hpw := val_prewrite_objItem_ok jenc st vid v k oid hv hw hctx hp
  rw [val_writeEnc_ok jenc st _ vid true enc hpw]
  rw [objectItem_prewrite_allow jenc st v.w k oid o ho (Or.inl how), hw, how]
  rcases hne : o.nonEmpty with _ | _
  · simp only [hne, Bool.false_eq_true, if_false]
    have hv3 : getVal (wWrite true (wWrite true
        (setObj st oid ⟨true, true, o.paused⟩) (jenc k)) [':']) vid = some v := by
      rw [getVal_wWrite, getVal_wWrite, getVal_setObj]
      exact hv
    simp only [val_writeEnc_go, hv3, Option.elim]
    rw [hw]
    have hv4 : getVal (wWrite true (wWrite true (wWrite true
        (setObj st oid ⟨true, true, o.paused⟩) (jenc k)) [':']) enc) vid = some v := by
      rw [getVal_wWrite]
      exact hv3
    have ho4 : getObj (wWrite true (wWrite true (wWrite true
        (setObj st oid ⟨true, true, o.paused⟩) (jenc k)) [':']) enc) oid
        = some ⟨true, true, o.paused⟩ := by
      rw [getObj_wWrite, getObj_wWrite, getObj_wWrite]
      exact getObj_setObj_self st oid _ hlto
    rw [val_postwrite_objItem _ vid v k oid ⟨true, true, o.paused⟩ hv4 hctx ho4]
    simp [wWrite, setVal, setObj, List.set_set, hp, hw, List.append_assoc]
  · simp only [hne, if_true]
    have hlto1 : oid < (wWrite true st [',']).objs.length := by
      simpa [wWrite] using hlto
    have hv3 : getVal (wWrite true (wWrite true
        (setObj (wWrite true st [',']) oid ⟨true, true, o.paused⟩) (jenc k)) [':']) vid
        = some v := by
      rw [getVal_wWrite, getVal_wWrite, getVal_setObj, getVal_wWrite]
      exact hv
    simp only [val_writeEnc_go, hv3, Option.elim]
    rw [hw]
    have hv4 : getVal (wWrite true (wWrite true (wWrite true
        (setObj (wWrite true st [',']) oid ⟨true, true, o.paused⟩) (jenc k)) [':']) enc) vid
        = some v := by
      rw [getVal_wWrite]
      exact hv3
    have ho4 : getObj (wWrite true (wWrite true (wWrite true
        (setObj (wWrite true st [',']) oid ⟨true, true, o.paused⟩) (jenc k)) [':']) enc) oid
        = some ⟨true, true, o.paused⟩ := by
      rw [getObj_wWrite, getObj_wWrite, getObj_wWrite]
      exact getObj_setObj_self _ oid _ hlto1
    rw [val_postwrite_objItem _ vid v k oid ⟨true, true, o.paused⟩ hv4 hctx ho4]
    simp [wWrite, setVal, setObj, List.set_set, hp, hw, List.append_assoc]

/-- `Item` followed by a fixed-encoding emission through the returned item
handle is a well-behaved object item write, wherever the builder lives. -/
theorem emitsItem_writeEnc (jenc : String → Bytes) (k : String) (enc : Bytes) :
    EmitsAnyItem (jenc k ++ ':' :: enc)
      (fun oid st => val_writeEnc jenc (obj_Item st oid k).1 (obj_Item st oid k).2 enc) := by
  intro oid st ne hob
  have hob' : getObj st oid = some ⟨true, ne, false⟩ := hob
  have hlto : oid < st.objs.length := getObj_lt st oid _ hob'
  beta_reduce
  have hitem : obj_Item st oid k
      = (⟨st.out, st.panicked,
           st.vals ++ [⟨true, some (jsonContext.objectItem k oid), false⟩],
           st.objs.set oid ⟨true, ne, true⟩⟩, some st.vals.length) := by
    simp [obj_Item, hob', setObj]
  rw [hitem]
  have hvA : getVal (⟨st.out, st.panicked,
      st.vals ++ [⟨true, some (jsonContext.objectItem k oid), false⟩],
      st.objs.set oid ⟨true, ne, true⟩⟩ : St) st.vals.length
      = some ⟨true, some (jsonContext.objectItem k oid), false⟩ := by
    simp [getVal, List.getElem?_concat_length]
  have hoA : getObj (⟨st.out, st.panicked,
      st.vals ++ [⟨true, some (jsonContext.objectItem k oid), false⟩],
      st.objs.set oid ⟨true, ne, true⟩⟩ : St) oid = some ⟨true, ne, true⟩ := by
    simp [getObj, List.getElem?_set_self hlto]
  rw [val_writeEnc_item jenc _ st.vals.length _ k oid ⟨true, ne, true⟩ enc hvA rfl rfl rfl
        hoA rfl]
  refine ⟨?_, ?_, ?_, ?_⟩
  · simp [List.append_assoc]
  · show getObj _ oid = _
    simp [getObj, List.set_set, List.getElem?_set_self hlto]
  · intro j hj
    show getVal _ j = getVal st j
    simp [getVal, List.getElem?_set_ne (Nat.ne_of_gt hj), List.getElem?_append, hj]
  · simp only [St.vals, List.length_set, List.length_append, List.length_cons,
      List.length_nil]
    omega

/-- Each scalar write through a fresh `Item` handle is a well-behaved
object item write emitting the key, a colon and the scalar's standard JSON
text. -/
theorem emitsItem_scal (jenc : String → Bytes) (k : String) (sc : Scal) :
    EmitsAnyItem (jenc k ++ ':' :: scalEnc jenc sc)
      (fun oid st => runScal jenc sc (obj_Item st oid k).1 (obj_Item st oid k).2) := by
  cases sc <;> exact emitsItem_writeEnc jenc k _

/-- A successful `Marshal` produces, in state, exactly a scalar write of
the marshaled bytes, on every handle. -/
theorem val_Marshal_okRes_eq_writeEnc (jenc : String → Bytes) (st : St) (h : Option Nat)
    (bs : Bytes) :
    (val_Marshal jenc st h (Except.ok bs)).1 = val_writeEnc jenc st h bs := by
  cases h with
  | none => rfl
  | some vid =>
    rcases hpw : val_prewrite jenc st (some vid) with ⟨st1, ok, sg⟩
    cases ok
    · rw [show val_Marshal jenc st (some vid) (Except.ok bs) = (st1, none) by
            unfold val_Marshal; rw [hpw],
          show val_writeEnc jenc st (some vid) bs = st1 by
            unfold val_writeEnc; rw [hpw]]
    · rw [val_Marshal_ok jenc st st1 vid sg _ hpw, val_writeEnc_ok jenc st st1 vid sg _ hpw]
      rfl

/-- A successful `Marshal` through a fresh `Item` handle is a well-behaved
object item write emitting the key, a colon and the marshaled bytes. -/
theorem emitsItem_marshalOk (jenc : String → Bytes) (k : String) (bs : Bytes) :
    EmitsAnyItem (jenc k ++ ':' :: bs)
      (fun oid st =>
        (val_Marshal jenc (obj_Item st oid k).1 (obj_Item st oid k).2 (Except.ok bs)).1) := by
  intro oid st ne hob
  beta_reduce
  rw [val_Marshal_okRes_eq_writeEnc]
  exact emitsItem_writeEnc jenc k bs oid st ne hob

/-- The state after the callback of an inner `Object` ran a list of item
writes against the freshly allocated builder (which sits at index
`C.objs.length` of the opened state `C`). -/
def objE (qs : List (Bytes × (Nat → St → St))) (C : St) (aid : Nat) : St :=
  foldElems (qs.map (fun q => q.2 C.objs.length)) (objectAlloc C aid)

/-- The same state after the builder's writer reference is cleared. -/
def objF (qs : List (Bytes × (Nat → St → St))) (C : St) (aid : Nat) : St :=
  severObj (objE qs C aid) C.objs.length

/-- The closing part of an `Object` write whose callback folds a list of
item writes: sever, write the closing brace, postwrite. -/
def objectTail (qs : List (Bytes × (Nat → St → St))) (C : St) (aid : Nat) (sg : Bool) : St :=
  val_postwrite (wWrite (Option.elim (getVal (objF qs C aid) aid) true val.w)
    (objF qs C aid) ['}']) aid sg

theorem val_Object_go_eq_tail (qs : List (Bytes × (Nat → St → St))) (B : St) (aid : Nat)
    (sg : Bool) :
    val_Object_go B aid sg
        (some (fun oid s => foldElems (qs.map (fun q => q.2 oid)) s))
      = objectTail qs (compositeOpen B aid '{') aid sg := rfl

theorem objectTail_spec (qs : List (Bytes × (Nat → St → St)))
    (hall : ∀ q ∈ qs, EmitsAnyItem q.1 q.2) (C : St) (aid : Nat) (nb : Bool)
    (hCval : getVal C aid = some ⟨true, some (jsonContext.array nb), true⟩) :
    (objectTail qs C aid false).out = C.out ++ sepJoin (qs.map Prod.fst) ++ ['}'] ∧
    ArrSlot (objectTail qs C aid false) aid nb ∧
    (∀ j, j < aid → getVal (objectTail qs C aid false) j = getVal C j) := by
  have hltC : aid < C.vals.length := getVal_lt C aid _ hCval
  have hDoid : ObjBuilder (objectAlloc C aid) C.objs.length false := by
    show getObj _ _ = _
    simp [objectAlloc, hCval, getObj, List.getElem?_concat_length]
  have hq : ∀ r ∈ qs.map (fun q => (q.1, q.2 C.objs.length)),
      EmitsItem C.objs.length r.1 r.2 := by
    intro r hrm
    rcases List.mem_map.mp hrm with ⟨q, hq0, rfl⟩
    exact hall q hq0 C.objs.length
  have hfold := foldItems_spec C.objs.length (qs.map (fun q => (q.1, q.2 C.objs.length)))
    hq (objectAlloc C aid) false hDoid
  have hms : (qs.map (fun q => (q.1, q.2 C.objs.length))).map Prod.snd
      = qs.map (fun q => q.2 C.objs.length) := by
    rw [List.map_map]
    rfl
  have hmf : (qs.map (fun q => (q.1, q.2 C.objs.length))).map Prod.fst
      = qs.map Prod.fst := by
    rw [List.map_map]
    rfl
  rw [hms, hmf] at hfold
  obtain ⟨hEout, hEob, hEpres, hElen⟩ := hfold
  have hEaid : getVal (objE qs C aid) aid
      = some ⟨true, some (jsonContext.array nb), true⟩ := by
    rw [show objE qs C aid = foldElems (qs.map (fun q => q.2 C.objs.length))
          (objectAlloc C aid) from rfl,
        hEpres aid hltC, getVal_objectAlloc]
    exact hCval
  have hFaid : getVal (objF qs C aid) aid
      = some ⟨true, some (jsonContext.array nb), true⟩ := by
    rw [show objF qs C aid = severObj (objE qs C aid) C.objs.length from rfl,
        getVal_severObj]
    exact hEaid
  have hFout : (objF qs C aid).out = (objE qs C aid).out := out_severObj _ _
  have hGaid : getVal (wWrite true (objF qs C aid) ['}']) aid
      = some ⟨true, some (jsonContext.array nb), true⟩ := by
    rw [getVal_wWrite]
    exact hFaid
  have htail : objectTail qs C aid false
      = setVal (wWrite true (objF qs C aid) ['}']) aid
          ⟨true, some (jsonContext.array nb), false⟩ := by
    unfold objectTail
    rw [hFaid]
    exact val_postwrite_array _ aid _ nb hGaid rfl
  have hltG : aid < (wWrite true (objF qs C aid) ['}']).vals.length :=
    (isSome_getVal_iff _ aid).mp (by rw [hGaid]; rfl)
  refine ⟨?_, ?_, ?_⟩
  · rw [htail, out_setVal]
    show ((objF qs C aid).out ++ ['}']) = _
    rw [hFout]
    rw [show (objE qs C aid).out = (objectAlloc C aid).out
          ++ emitAll false (qs.map Prod.fst) from hEout]
    rw [show (objectAlloc C aid).out = C.out from rfl, emitAll_false]
  · show getVal _ aid = _
    rw [htail]
    exact getVal_setVal_self _ _ _ hltG
  · intro j hj
    rw [htail, getVal_setVal_ne _ _ _ _ (Nat.ne_of_gt hj), getVal_wWrite,
        show objF qs C aid = severObj (objE qs C aid) C.objs.length from rfl,
        getVal_severObj,
        show objE qs C aid = foldElems (qs.map (fun q => q.2 C.objs.length))
          (objectAlloc C aid) from rfl,
        hEpres j (Nat.lt_trans hj hltC),
        getVal_objectAlloc]

/-- An inner `Object` whose callback performs well-behaved item writes is
itself a well-behaved array element write, emitting the braced
comma-joined item encodings. -/
theorem emitsElem_object (jenc : String → Bytes) (qs : List (Bytes × (Nat → St → St)))
    (hall : ∀ q ∈ qs, EmitsAnyItem q.1 q.2) :
    EmitsAnyElem ('{' :: (sepJoin (qs.map Prod.fst) ++ ['}']))
      (fun aid st => val_Object jenc st (some aid)
        (some (fun oid s => foldElems (qs.map (fun q => q.2 oid)) s))) := by
  intro aid st ne hsl
  beta_reduce
  have hltB : aid < st.vals.length := getVal_lt st aid _ hsl
  have hpw := val_prewrite_array_ok jenc st aid _ ne hsl rfl rfl rfl
  rw [val_Object_ok jenc st _ aid false _ hpw, val_Object_go_eq_tail]
  have hA : ArrSlot (⟨st.out ++ (if ne then [','] else []), st.panicked,
      st.vals.set aid ⟨true, some (jsonContext.array true), false⟩, st.objs⟩ : St) aid true := by
    show getVal _ aid = _
    simp [getVal, List.getElem?_set_self hltB]
  have hco := compositeOpen_own _ aid ⟨true, some (jsonContext.array true), false⟩ '{' hA
      rfl (Or.inr ⟨true, rfl⟩)
  have hCval : getVal (compositeOpen (⟨st.out ++ (if ne then [','] else []), st.panicked,
      st.vals.set aid ⟨true, some (jsonContext.array true), false⟩, st.objs⟩ : St) aid
        '{') aid
      = some ⟨true, some (jsonContext.array true), true⟩ := by
    rw [hco]
    show ((st.vals.set aid _).set aid _)[aid]? = _
    rw [List.getElem?_set_self (by simpa using hltB)]
  obtain ⟨t1, t2, t3⟩ := objectTail_spec qs hall _ aid true hCval
  refine ⟨?_, ?_, ?_⟩
  · rw [t1, hco]
    simp [List.append_assoc]
  · exact t2
  · intro j hj
    rw [t3 j hj, hco]
    show ((st.vals.set aid _).set aid _)[j]? = _
    rw [List.getElem?_set_ne (Nat.ne_of_gt hj), List.getElem?_set_ne (Nat.ne_of_gt hj)]
    rfl

/-- C6: for every sequence of successful element writes performed through
the handle passed to an `Array` callback, the total output of the `Array`
call is an opening bracket, the element encodings joined by commas — none
before the first element, none after the last, one between neighbours — and
a closing bracket; and the class of well-behaved element writes contains
every scalar write, every successful `Marshal`, every nested `Array` whose
own callback performs such writes, and every nested `Object` whose callback
performs well-behaved item writes — a class that contains `Item` followed
by any scalar write and `Item` followed by a successful `Marshal`. -/
theorem c6_array_comma_discipline :
    (∀ (jenc : String → Bytes) (ps : List (Bytes × (Nat → St → St))),
      (∀ p ∈ ps, EmitsAnyElem p.1 p.2) →
      (val_Array jenc initSt rootHandle
          (some (fun aid s => foldElems (ps.map (fun p => p.2 aid)) s))).out
        = '[' :: (sepJoin (ps.map Prod.fst) ++ [']'])) ∧
    (∀ (jenc : String → Bytes) (sc : Scal),
      EmitsAnyElem (scalEnc jenc sc) (fun aid st => runScal jenc sc st (some aid))) ∧
    (∀ (jenc : String → Bytes) (bs : Bytes),
      EmitsAnyElem bs (fun aid st => (val_Marshal jenc st (some aid) (Except.ok bs)).1)) ∧
    (∀ (jenc : String → Bytes) (ps : List (Bytes × (Nat → St → St))),
      (∀ p ∈ ps, EmitsAnyElem p.1 p.2) →
      EmitsAnyElem ('[' :: (sepJoin (ps.map Prod.fst) ++ [']']))
        (fun aid st => val_Array jenc st (some aid)
          (some (fun bid s => foldElems (ps.map (fun p => p.2 bid)) s)))) ∧
    (∀ (jenc : String → Bytes) (qs : List (Bytes × (Nat → St → St))),
      (∀ q ∈ qs, EmitsAnyItem q.1 q.2) →
      EmitsAnyElem ('{' :: (sepJoin (qs.map Prod.fst) ++ ['}']))
        (fun aid st => val_Object jenc st (some aid)
          (some (fun oid s => foldElems (qs.map (fun q => q.2 oid)) s)))) ∧
    (∀ (jenc : String → Bytes) (k : String) (sc : Scal),
      EmitsAnyItem (jenc k ++ ':' :: scalEnc jenc sc)
        (fun oid st => runScal jenc sc (obj_Item st oid k).1 (obj_Item st oid k).2)) ∧
    (∀ (jenc : String → Bytes) (k : String) (bs : Bytes),
      EmitsAnyItem (jenc k ++ ':' :: bs)
        (fun oid st =>
          (val_Marshal jenc (obj_Item st oid k).1 (obj_Item st oid k).2 (Except.ok bs)).1)) :=
  ⟨fun jenc ps hall => arrayRootOut jenc ps hall,
   fun jenc sc => emitsElem_scal jenc sc,
   fun jenc bs => emitsElem_marshalOk jenc bs,
   fun jenc ps hall => emitsElem_array jenc ps hall,
   fun jenc qs hall => emitsElem_object jenc qs hall,
   fun jenc k sc => emitsItem_scal jenc k sc,
   fun jenc k bs => emitsItem_marshalOk jenc k bs⟩

/-- A concrete well-behaved item write: `Item "x"` then the integer 1. -/
def c6item : Bytes × (Nat → St → St) :=
  (jencD "x" ++ ':' :: scalEnc jencD (Scal.intS 1),
   fun oid st => runScal jencD (Scal.intS 1) (obj_Item st oid "x").1 (obj_Item st oid "x").2)

/-- A concrete element list: the integer 1, a one-item nested object, and
the boolean true. -/
def c6elems : List (Bytes × (Nat → St → St)) :=
  [(scalEnc jencD (Scal.intS 1),
    fun bid st => runScal jencD (Scal.intS 1) st (some bid)),
   ('{' :: (sepJoin ([c6item].map Prod.fst) ++ ['}']),
    fun aid st => val_Object jencD st (some aid)
      (some (fun oid s => foldElems ([c6item].map (fun q => q.2 oid)) s))),
   (scalEnc jencD (Scal.boolS true),
    fun bid st => runScal jencD (Scal.boolS true) st (some bid))]

/-- C6 witness: a three-element array — an integer, a nested one-item
object, and a boolean — written on the fresh root slot yields exactly the
bracketed comma-joined text. -/
theorem c6_array_comma_discipline_witness :
    (val_Array jencD initSt rootHandle
        (some (fun aid s => foldElems (c6elems.map (fun p => p.2 aid)) s))).out
      = '[' :: (sepJoin (c6elems.map Prod.fst) ++ [']']) :=
  c6_array_comma_discipline.1 jencD c6elems (by
    intro p hp
    rcases List.mem_cons.mp hp with h | hp2
    · subst h
      exact c6_array_comma_discipline.2.1 jencD (Scal.intS 1)
    · rcases List.mem_cons.mp hp2 with h | hp3
      · subst h
        exact c6_array_comma_discipline.2.2.2.2.1 jencD [c6item] (by
          intro q hq
          rcases List.mem_cons.mp hq with h2 | h3
          · subst h2
            exact c6_array_comma_discipline.2.2.2.2.2.1 jencD "x" (Scal.intS 1)
          · exact absurd h3 (List.not_mem_nil q))
      · rcases List.mem_cons.mp hp3 with h | h4
        · subst h
          exact c6_array_comma_discipline.2.1 jencD (Scal.boolS true)
        · exact absurd h4 (List.not_mem_nil p))

/-- C2 witness: a failed marshal on the concrete fresh root slot returns
the error and retires the slot. -/
theorem c2_amended_witness :
    val_Marshal jencD initSt (some 0) (Except.error "e")
      = (setVal initSt 0 ⟨true, none, false⟩, some "e") :=
  c2_amended.1 jencD initSt 0 ⟨true, some jsonContext.single, false⟩ "e" rfl rfl rfl rfl
